import Mathlib

/-!
Verification of the IdeaFlow workflow engine.

This file gives a shallow embedding, in Lean 4, of the graph
construction / scheduling / execution core of the IdeaFlow repository
(`src/lib/workflow-api.ts`, `src/app/canvas/page.tsx`, the local parser
module, and the validation block of `src/app/api/workflow/parse/route.ts`),
together with theorems settling the frozen specification claims about it.

JavaScript `Map`s (insertion-ordered, update-in-place) are embedded as
association lists with an order-preserving `mset`/`mget`; JS string
falsiness (`undefined`/`""`) is embedded by `truthy`; the `while` loop of
Kahn's algorithm is embedded with an explicit fuel parameter that is
provably sufficient (the loop performs at most one dequeue per in-degree
key).  The asynchronous Step Executor call of the orchestrator is embedded
as an explicit result value that is either a response record or a thrown
value, and the shared cancellation flag as the sequence of values it is
observed to have at the per-iteration checks.
-/

set_option maxHeartbeats 1000000

namespace IdeaFlow

/-! ## Data model (src/components/workflow/types.ts) -/

inductive NodeStatus where
  | pending
  | running
  | done
  | blocked
deriving DecidableEq, Repr

inductive WorkflowCategory where
  | collect
  | analyze
  | execute
  | notify
  | decision
deriving DecidableEq, Repr

structure WorkflowNode where
  id : String
  title : String
  detail : String
  category : WorkflowCategory
  status : NodeStatus
  tags : List String
  output : Option String := none
  error : Option String := none
deriving DecidableEq, Repr

structure WorkflowEdge where
  id : String
  source : String
  target : String
  label : Option String := none
deriving DecidableEq, Repr

structure WorkflowGraph where
  nodes : List WorkflowNode
  edges : List WorkflowEdge
  summary : String := ""
  warnings : List String := []
deriving DecidableEq, Repr

structure ExecutedNode where
  nodeId : String
  title : String
  output : String
deriving DecidableEq, Repr

structure ExecutionContext where
  originalIdea : String
  executedNodes : List ExecutedNode
  currentInput : String
deriving DecidableEq, Repr

/-- JS string truthiness for an optional string: `undefined` and `""` are
falsy, everything else truthy. -/
def truthy : Option String → Bool
  | none => false
  | some s => s ≠ ""

/-! ## Insertion-ordered maps (embedding of JS `Map`) -/

/-- `Map.set`: update the value in place if the key is present, else append
the binding at the end (JS `Map`s preserve first-insertion order). -/
def mset {α : Type} (k : String) (v : α) : List (String × α) → List (String × α)
  | [] => [(k, v)]
  | p :: rest => if p.1 = k then (k, v) :: rest else p :: mset k v rest

/-- `Map.get`: the value currently bound to `k`, if any. -/
def mget {α : Type} (k : String) : List (String × α) → Option α
  | [] => none
  | p :: rest => if p.1 = k then some p.2 else mget k rest

/-- The key sequence of a map, in insertion order. -/
def mkeys {α : Type} (m : List (String × α)) : List String :=
  m.map Prod.fst

/-! ## Context Propagator (src/lib/workflow-api.ts) -/

/-- `createInitialContext` from workflow-api.ts. -/
def createInitialContext (idea : String) : ExecutionContext :=
  { originalIdea := idea, executedNodes := [], currentInput := idea }

/-- `updateContext` from workflow-api.ts. -/
def updateContext (context : ExecutionContext) (node : WorkflowNode)
    (output : String) : ExecutionContext :=
  { context with
    executedNodes := context.executedNodes ++ [⟨node.id, node.title, output⟩],
    currentInput := output }

/-! ## Scheduler (getExecutionOrder, src/lib/workflow-api.ts)

The TS function builds `nodeMap`, `inDegree`, `adjacency`, seeds a queue
with the zero-in-degree keys in map order, runs Kahn's algorithm, and
finally appends any nodes missed because of a cycle. -/

/-- `new Map(graph.nodes.map((n) => [n.id, n]))`. -/
def nodeMapOf (nodes : List WorkflowNode) : List (String × WorkflowNode) :=
  nodes.foldl (fun m n => mset n.id n m) []

/-- The initialization loop: every node id gets in-degree `0` and an empty
adjacency list. -/
def initMaps (nodes : List WorkflowNode) :
    List (String × Int) × List (String × List String) :=
  nodes.foldl (fun m n => (mset n.id 0 m.1, mset n.id [] m.2)) ([], [])

/-- The body of the edge loop: push the target onto the source's adjacency
list and increment the target's in-degree (`get(...) || 0` defaults a
missing entry to `0`). -/
def addEdge (m : List (String × Int) × List (String × List String))
    (e : WorkflowEdge) : List (String × Int) × List (String × List String) :=
  let targets := (mget e.source m.2).getD []
  (mset e.target ((mget e.target m.1).getD 0 + 1) m.1,
   mset e.source (targets ++ [e.target]) m.2)

/-- In-degree and adjacency maps after both build loops. -/
def buildMaps (g : WorkflowGraph) :
    List (String × Int) × List (String × List String) :=
  g.edges.foldl addEdge (initMaps g.nodes)

/-- The inner `for neighbor of adjacency.get(current)` loop: decrement each
neighbor's in-degree, enqueueing a neighbor exactly when its new degree is
`0`. -/
def processNeighbors :
    List String → List (String × Int) → List String →
      List (String × Int) × List String
  | [], ind, queue => (ind, queue)
  | t :: ts, ind, queue =>
    let nd := (mget t ind).getD 0 - 1
    processNeighbors ts (mset t nd ind) (if nd = 0 then queue ++ [t] else queue)

/-- The `while (queue.length > 0)` loop of Kahn's algorithm, with explicit
fuel.  Each key is enqueued at most once, so fuel equal to the number of
in-degree entries is sufficient; the fuel-exhausted branch is unreachable
from `getExecutionOrder` (see the invariant proofs below). -/
def kahnLoop (adj : List (String × List String)) :
    Nat → List String → List (String × Int) → List String → List String
  | 0, _, _, order => order
  | _ + 1, [], _, order => order
  | fuel + 1, current :: rest, ind, order =>
    let targets := (mget current adj).getD []
    let s := processNeighbors targets ind rest
    kahnLoop adj fuel s.2 s.1 (order ++ [current])

/-- `getExecutionOrder` from workflow-api.ts: Kahn's algorithm over the
node/edge lists, followed by the cycle fallback that appends every node
whose id has not been emitted, in original node-list order. -/
def getExecutionOrder (g : WorkflowGraph) : List WorkflowNode :=
  let nodeMap := nodeMapOf g.nodes
  let m := buildMaps g
  let queue := m.1.filterMap (fun p => if p.2 = 0 then some p.1 else none)
  let orderIds := kahnLoop m.2 m.1.length queue m.1 []
  let result := orderIds.filterMap (fun i => mget i nodeMap)
  if result.length < g.nodes.length then
    g.nodes.foldl
      (fun res n => if res.any (fun m => m.id = n.id) then res else res ++ [n])
      result
  else result

/-! ## Graph Editor (src/app/canvas/page.tsx) -/

/-- JS `a || b` on optional strings (used for edge labels): keep `a` when
truthy, else `b`. -/
def jsOrLabel (a b : Option String) : Option String :=
  if truthy a then a else b

/-- `deleteNode` from canvas/page.tsx: drop the node and every edge touching
it, then bridge every (incoming-source, outgoing-target) pair.  `now` stands
for the `Date.now()` timestamp used in the generated bridge ids. -/
def deleteNode (g : WorkflowGraph) (nodeId : String) (now : Nat) : WorkflowGraph :=
  if ¬ g.nodes.any (fun n => n.id = nodeId) then g
  else
    let incoming := g.edges.filter (fun e => e.target = nodeId)
    let outgoing := g.edges.filter (fun e => e.source = nodeId)
    let remainingNodes := g.nodes.filter (fun n => n.id ≠ nodeId)
    let remainingEdges :=
      g.edges.filter (fun e => e.source ≠ nodeId ∧ e.target ≠ nodeId)
    let bridges := incoming.flatMap (fun inEdge =>
      outgoing.map (fun outEdge =>
        { id := "edge-bridge-" ++ inEdge.source ++ "-" ++ outEdge.target ++ "-"
            ++ toString now,
          source := inEdge.source,
          target := outEdge.target,
          label := jsOrLabel outEdge.label (jsOrLabel inEdge.label (some "follow")) }))
    { g with nodes := remainingNodes, edges := remainingEdges ++ bridges }

/-- `handleEdgeCreate` from canvas/page.tsx: a no-op when the exact
(source, target) pair already exists, otherwise append one unlabeled edge
with the generated id. -/
def handleEdgeCreate (g : WorkflowGraph) (source target : String) : WorkflowGraph :=
  let edgeId := "edge-" ++ source ++ "-" ++ target
  if g.edges.any (fun e => e.source = source ∧ e.target = target) then g
  else
    { g with edges := g.edges ++
        [{ id := edgeId, source := source, target := target, label := none }] }

/-! ## Executor Orchestrator (executeFlow, src/app/canvas/page.tsx)

The `await executeNode(node, context)` call either resolves to a response
record `{success, output?, error?}` or rejects; a rejection is caught and
mapped to `error instanceof Error ? error.message : "Unknown error"`.  A
response with `success && result.output` falsy is re-thrown as
`new Error(result.error || "Execution failed")` and caught by the same
handler. -/

/-- Outcome of one Step Executor call: a settled response, an exception that
is an `Error` carrying a message, or a thrown non-`Error` value. -/
inductive StepResult where
  | resp (success : Bool) (output : Option String) (error : Option String)
  | thrownError (message : String)
  | thrownOther
deriving DecidableEq, Repr

/-- The `result.success && result.output` test guarding the success path. -/
def stepOk : StepResult → Bool
  | .resp success output _ => success && truthy output
  | _ => false

/-- The output string consumed on the success path. -/
def stepOutput : StepResult → String
  | .resp _ (some o) _ => o
  | _ => ""

/-- The message stored on the blocked node: for a non-success response it is
`result.error || "Execution failed"`; for a thrown `Error` its message; for
any other thrown value `"Unknown error"`. -/
def caughtMessage : StepResult → String
  | .resp _ _ e => if truthy e then e.getD "" else "Execution failed"
  | .thrownError m => m
  | .thrownOther => "Unknown error"

/-- `setGraph` update marking a node running. -/
def markRunning (nodes : List WorkflowNode) (nid : String) : List WorkflowNode :=
  nodes.map fun n => if n.id = nid then { n with status := .running } else n

/-- `setGraph` update marking a node done with its output. -/
def markDone (nodes : List WorkflowNode) (nid : String) (out : String) :
    List WorkflowNode :=
  nodes.map fun n =>
    if n.id = nid then { n with status := .done, output := some out } else n

/-- `setGraph` update marking a node blocked with an error message. -/
def markBlocked (nodes : List WorkflowNode) (nid : String) (msg : String) :
    List WorkflowNode :=
  nodes.map fun n =>
    if n.id = nid then { n with status := .blocked, error := some msg } else n

/-- One loop iteration of `executeFlow` after the cancellation check: mark
the node running, call the Step Executor, then either advance the context
and mark the node done, or mark it blocked and keep the context. -/
def flowStep (exec : WorkflowNode → ExecutionContext → StepResult)
    (nodes : List WorkflowNode) (ctx : ExecutionContext) (node : WorkflowNode) :
    List WorkflowNode × ExecutionContext :=
  let nodes₁ := markRunning nodes node.id
  let r := exec node ctx
  if stepOk r then
    (markDone nodes₁ node.id (stepOutput r), updateContext ctx node (stepOutput r))
  else
    (markBlocked nodes₁ node.id (caughtMessage r), ctx)

/-- The `for (const node of orderedNodes)` loop of `executeFlow`.
`abortAt i` is the value of the shared cancellation flag as observed by the
check at the start of iteration `i`; when it is set the loop breaks.  The
third component collects the ids of the nodes actually dispatched (marked
running), in dispatch order. -/
def runFlowLoop (exec : WorkflowNode → ExecutionContext → StepResult)
    (abortAt : Nat → Bool) :
    List WorkflowNode → Nat → List WorkflowNode → ExecutionContext →
      List WorkflowNode × ExecutionContext × List String
  | [], _, nodes, ctx => (nodes, ctx, [])
  | node :: rest, i, nodes, ctx =>
    if abortAt i then (nodes, ctx, [])
    else
      let s := flowStep exec nodes ctx node
      let f := runFlowLoop exec abortAt rest (i + 1) s.1 s.2
      (f.1, f.2.1, node.id :: f.2.2)

/-- The initial reset of `executeFlow`: every node pending, output and error
cleared. -/
def resetNodes (nodes : List WorkflowNode) : List WorkflowNode :=
  nodes.map fun n => { n with status := .pending, output := none, error := none }

/-- `executeFlow` from canvas/page.tsx: reset the statuses, compute the
execution order, create a fresh context from the prompt, and run the node
loop.  Returns the final node list, the final context, and the dispatched
node ids. -/
def executeFlow (exec : WorkflowNode → ExecutionContext → StepResult)
    (abortAt : Nat → Bool) (g : WorkflowGraph) (prompt : String) :
    List WorkflowNode × ExecutionContext × List String :=
  runFlowLoop exec abortAt (getExecutionOrder g) 0 (resetNodes g.nodes)
    (createInitialContext prompt)

/-! ## Decomposer / Classifier / Builder (local parser module)

Embedding of `tokenizeIdea`, `toTitle`, `inferCategory`, `inferTags`,
`createEdgeLabel`, `buildWarnings` and `parseIdeaToWorkflow`.  JS strings
are processed as `List Char`; `String.prototype.trim`, `\w`, `\s` and
`toLowerCase()` act on ASCII here exactly as the helpers below. -/

/-- The whitespace class removed by JS `trim()` and matched by `\s`
(ASCII part). -/
def isJsSpace (c : Char) : Bool :=
  c = ' ' ∨ c = '\t' ∨ c = '\n' ∨ c = '\r' ∨ c = '\x0b' ∨ c = '\x0c'

/-- JS `String.prototype.trim`. -/
def jsTrim (s : String) : String :=
  (((s.toList.dropWhile isJsSpace).reverse.dropWhile isJsSpace).reverse).asString

/-- JS `split` on a single-character class: cut at every matching character,
keeping empty pieces. -/
def splitChars (p : Char → Bool) : List Char → List Char → List (List Char)
  | [], acc => [acc.reverse]
  | c :: cs, acc =>
    if p c then acc.reverse :: splitChars p cs [] else splitChars p cs (c :: acc)

/-- Does the character list start with the given needle? -/
def startsWithChars : List Char → List Char → Bool
  | _, [] => true
  | [], _ :: _ => false
  | c :: cs, d :: ds => c = d && startsWithChars cs ds

/-- Contiguous-substring test on character lists. -/
def containsSub : List Char → List Char → Bool
  | [], needle => needle.isEmpty
  | c :: cs, needle => startsWithChars (c :: cs) needle || containsSub cs needle

/-- Substring test: JS `lowered.includes(keyword)` /
`regex.test(lowered)` for a literal alternative. -/
def containsKw (lowered : List Char) (kw : String) : Bool :=
  containsSub lowered kw.toList

/-- The five category keyword rows, in `Object.entries` order. -/
def CATEGORY_KEYWORDS : List (WorkflowCategory × List String) :=
  [(.collect, ["gather", "collect", "capture", "record", "listen", "transcribe"]),
   (.analyze, ["analyze", "inspect", "validate", "classify", "score", "check"]),
   (.execute, ["send", "trigger", "run", "execute", "sync", "call"]),
   (.notify, ["notify", "email", "alert", "message", "post", "share", "notion"]),
   (.decision, ["if", "when", "branch", "decide", "choose", "route"])]

/-- The tag keyword rows, in `Object.entries` order. -/
def TAG_KEYWORDS : List (String × List String) :=
  [("notion", ["notion"]),
   ("email", ["email", "inbox"]),
   ("voice", ["voice", "speech", "microphone"]),
   ("timeline", ["timeline", "schedule", "deadline"]),
   ("api", ["api", "endpoint", "webhook"]),
   ("debug", ["debug", "error", "failure", "retry"])]

/-- `FALLBACK_IDEA` from the parser module. -/
def FALLBACK_IDEA : String :=
  "Capture a user's idea, break it into ordered steps, validate dependencies, and surface a clear flow with execution notes."

/-- `toTitle`: blank out characters outside `[\w\s-]`, trim, take the first
six whitespace-separated words, capitalize the first character;
`"Untitled step"` when nothing is left. -/
def toTitle (text : String) : String :=
  let cleanedChars := text.toList.map fun c =>
    if c.isAlphanum ∨ c = '_' ∨ isJsSpace c ∨ c = '-' then c else ' '
  let cleaned := jsTrim cleanedChars.asString
  let wordPieces :=
    ((splitChars isJsSpace cleaned.toList []).map List.asString).filter (· ≠ "")
  let words := String.intercalate " " (wordPieces.take 6)
  if words = "" then "Untitled step"
  else
    match words.toList with
    | [] => ""
    | c :: rest => (c.toUpper :: rest).asString

/-- `inferCategory`: first category whose keyword row has a (case-folded)
substring match, in table order; default `collect`. -/
def inferCategory (text : String) : WorkflowCategory :=
  let lowered := text.toList.map Char.toLower
  match CATEGORY_KEYWORDS.find? (fun row => row.2.any (containsKw lowered)) with
  | some row => row.1
  | none => .collect

/-- `inferTags`: every tag whose keyword row has a substring match, in
table order. -/
def inferTags (text : String) : List String :=
  let lowered := text.toList.map Char.toLower
  (TAG_KEYWORDS.filter (fun row => row.2.any (containsKw lowered))).map Prod.fst

/-- `tokenizeIdea`: replace `\r` with `\n`, split on `[\n.!?;]`, trim each
segment, drop the empty ones. -/
def tokenizeIdea (idea : String) : List String :=
  let replaced := idea.toList.map fun c => if c = '\r' then '\n' else c
  let pieces := splitChars
    (fun c => c = '\n' ∨ c = '.' ∨ c = '!' ∨ c = '?' ∨ c = ';') replaced []
  ((pieces.map (fun cs => jsTrim cs.asString))).filter (· ≠ "")

/-- `createEdgeLabel`: `"branch"` when the source detail matches `/if|when/`,
else `"follow"` when the target detail matches `/then|after|once/`, else
`"next"`. -/
def createEdgeLabel (sourceDetail targetDetail : String) : String :=
  if ["if", "when"].any (containsKw (sourceDetail.toList.map Char.toLower)) then
    "branch"
  else if ["then", "after", "once"].any
      (containsKw (targetDetail.toList.map Char.toLower)) then
    "follow"
  else "next"

/-- `buildWarnings` from the parser module: an advisory line when fewer than
three nodes, and one when some edge's target id is missing from the node
set.  (This local check looks at targets only; the parse route's validator
below checks both endpoints.) -/
def buildWarnings (nodes : List WorkflowNode) (edges : List WorkflowEdge) :
    List String :=
  (if nodes.length < 3 then
    ["Add more detail so the flow has at least 3 distinct steps."] else []) ++
  (if (edges.filter (fun e => ¬ nodes.any (fun n => n.id = e.target))).length > 0
   then ["Some edges point to missing nodes. Check detected dependencies."]
   else [])

/-- `parseIdeaToWorkflow` (graph part): decompose the idea into segments,
classify each into a node, chain consecutive nodes with labeled edges, and
attach the advisory warnings. -/
def parseIdeaToWorkflow (ideaInput : String) : WorkflowGraph :=
  let idea := if jsTrim ideaInput = "" then FALLBACK_IDEA else jsTrim ideaInput
  let segments := tokenizeIdea idea
  let nodes : List WorkflowNode := segments.enum.map fun p =>
    { id := "node-" ++ toString (p.1 + 1),
      title := toTitle p.2,
      detail := p.2,
      category := inferCategory p.2,
      status := .pending,
      tags := inferTags p.2 }
  let edges : List WorkflowEdge := (nodes.zip (nodes.drop 1)).enum.map fun p =>
    { id := "edge-" ++ toString (p.1 + 1),
      source := p.2.1.id,
      target := p.2.2.id,
      label := some (createEdgeLabel p.2.1.detail p.2.2.detail) }
  { nodes := nodes,
    edges := edges,
    summary := "Detected " ++ toString nodes.length ++ " steps",
    warnings := buildWarnings nodes edges }

/-! ## Validator (src/app/api/workflow/parse/route.ts, POST)

The block after graph construction: append a warning when some edge
references a missing node (source or target), and one when some node after
the first has no incoming edge.  It only appends warning strings — the node
and edge lists are returned untouched. -/

/-- The invalid-edge count of the `POST` validation block: edges whose
source or target id is not in the node-id set. -/
def danglingCount (g : WorkflowGraph) : Nat :=
  (g.edges.filter (fun e => ¬ (g.nodes.map (fun n => n.id)).contains e.source
    ∨ ¬ (g.nodes.map (fun n => n.id)).contains e.target)).length

/-- The orphan count of the `POST` validation block: nodes after the first
with no incoming edge. -/
def orphanCount (g : WorkflowGraph) : Nat :=
  ((g.nodes.drop 1).filter
    (fun n => ¬ (g.edges.map (fun e => e.target)).contains n.id)).length

/-- The first push of the validation block. -/
def applyDanglingWarning (g : WorkflowGraph) : WorkflowGraph :=
  if 0 < danglingCount g then
    { g with warnings := g.warnings ++
        [toString (danglingCount g) ++ " edge(s) reference missing nodes"] }
  else g

/-- The second push of the validation block. -/
def applyOrphanWarning (g : WorkflowGraph) : WorkflowGraph :=
  if 0 < orphanCount g then
    { g with warnings := g.warnings ++
        [toString (orphanCount g) ++ " node(s) have no incoming connections"] }
  else g

/-- The post-parse validation block of the `POST` handler: both advisory
checks, run in order; only the warning list is touched. -/
def validateParsedGraph (g : WorkflowGraph) : WorkflowGraph :=
  applyOrphanWarning (applyDanglingWarning g)

/-! ## Specification-side definitions for the Scheduler proofs -/

/-- Number of edges whose target is `k`. -/
def tdeg (es : List WorkflowEdge) (k : String) : Nat :=
  (es.filter (fun e => e.target = k)).length

/-- Targets of the edges whose source is `s`, in edge order: the value the
adjacency map assigns to `s`. -/
def outTargets (es : List WorkflowEdge) (s : String) : List String :=
  (es.filter (fun e => e.source = s)).map (fun e => e.target)

/-- Remaining in-degree of `k` once the nodes in `P` have been processed:
the number of edges into `k` whose source is not in `P`. -/
def remDeg (g : WorkflowGraph) (P : List String) (k : String) : Nat :=
  (g.edges.filter (fun e => e.target = k ∧ e.source ∉ P)).length

/-- The edge relation of a graph, on node ids. -/
def edgeRel (g : WorkflowGraph) (s t : String) : Prop :=
  ∃ e ∈ g.edges, e.source = s ∧ e.target = t

/-- A directed cycle exists: some id reaches itself through at least one
edge. -/
def hasCycle (g : WorkflowGraph) : Prop :=
  ∃ v, Relation.TransGen (edgeRel g) v v

/-! ## Association-map lemmas -/

theorem mget_mset_self {α : Type} (k : String) (v : α) (m : List (String × α)) :
    mget k (mset k v m) = some v := by
  induction m with
  | nil => simp [mset, mget]
  | cons p rest ih =>
    by_cases h : p.1 = k
    · simp [mset, h, mget]
    · simp [mset, h, mget, ih]

theorem mget_mset_ne {α : Type} {k k' : String} (h : k' ≠ k) (v : α)
    (m : List (String × α)) : mget k' (mset k v m) = mget k' m := by
  induction m with
  | nil => simp [mset, mget, Ne.symm h]
  | cons p rest ih =>
    by_cases hp : p.1 = k
    · subst hp
      simp [mset, mget, Ne.symm h]
    · simp only [mset, hp, if_false]
      by_cases hp' : p.1 = k'
      · simp [mget, hp']
      · simp [mget, hp', ih]

@[simp] theorem mkeys_nil {α : Type} : mkeys ([] : List (String × α)) = [] := rfl

@[simp] theorem mkeys_cons {α : Type} (p : String × α) (m : List (String × α)) :
    mkeys (p :: m) = p.1 :: mkeys m := rfl

theorem mkeys_mset_mem {α : Type} {k : String} {m : List (String × α)}
    (h : k ∈ mkeys m) (v : α) : mkeys (mset k v m) = mkeys m := by
  induction m with
  | nil => simp at h
  | cons p rest ih =>
    by_cases hp : p.1 = k
    · simp [mset, hp]
    · simp only [mkeys_cons, List.mem_cons] at h
      rcases h with h | h
      · exact absurd h.symm hp
      · simp [mset, hp, ih h]

theorem mkeys_mset_not_mem {α : Type} {k : String} {m : List (String × α)}
    (h : k ∉ mkeys m) (v : α) : mkeys (mset k v m) = mkeys m ++ [k] := by
  induction m with
  | nil => simp [mset]
  | cons p rest ih =>
    simp only [mkeys_cons, List.mem_cons] at h
    push_neg at h
    simp [mset, Ne.symm h.1, ih h.2]

theorem mem_mkeys_of_mget {α : Type} {k : String} {v : α}
    {m : List (String × α)} (h : mget k m = some v) : k ∈ mkeys m := by
  induction m with
  | nil => simp [mget] at h
  | cons p rest ih =>
    by_cases hp : p.1 = k
    · simp [hp]
    · simp only [mget, hp, if_false] at h
      simp [ih h]

theorem mget_eq_none_of_not_mem {α : Type} {k : String}
    {m : List (String × α)} (h : k ∉ mkeys m) : mget k m = none := by
  cases hg : mget k m with
  | none => rfl
  | some v => exact absurd (mem_mkeys_of_mget hg) h

theorem mget_isSome_of_mem {α : Type} {k : String} {m : List (String × α)}
    (h : k ∈ mkeys m) : ∃ v, mget k m = some v := by
  induction m with
  | nil => simp [mkeys] at h
  | cons p rest ih =>
    by_cases hp : p.1 = k
    · exact ⟨p.2, by simp [mget, hp]⟩
    · simp only [mkeys, List.map_cons, List.mem_cons] at h
      rcases h with h | h
      · exact absurd h.symm hp
      · rcases ih h with ⟨v, hv⟩
        exact ⟨v, by simp [mget, hp, hv]⟩

theorem entry_mem_of_mget {α : Type} {k : String} {v : α}
    {m : List (String × α)} (h : mget k m = some v) : (k, v) ∈ m := by
  induction m with
  | nil => simp [mget] at h
  | cons p rest ih =>
    by_cases hp : p.1 = k
    · simp only [mget, hp, if_true, Option.some.injEq] at h
      subst h
      subst hp
      exact List.mem_cons_self _ _
    · simp only [mget, hp, if_false] at h
      exact List.mem_cons_of_mem _ (ih h)

theorem mget_of_entry_mem {α : Type} {k : String} {v : α}
    {m : List (String × α)} (hd : (mkeys m).Nodup) (h : (k, v) ∈ m) :
    mget k m = some v := by
  induction m with
  | nil => simp at h
  | cons p rest ih =>
    simp only [List.mem_cons] at h
    simp only [mkeys, List.map_cons, List.nodup_cons] at hd
    rcases h with h | h
    · subst h
      simp [mget]
    · have hk : p.1 ≠ k := by
        intro he
        exact hd.1 (he ▸ (List.mem_map.mpr ⟨(k, v), h, rfl⟩))
      simp [mget, hk, ih hd.2 h]

theorem nodup_mkeys_mset {α : Type} {k : String} {m : List (String × α)}
    (hd : (mkeys m).Nodup) (v : α) : (mkeys (mset k v m)).Nodup := by
  by_cases h : k ∈ mkeys m
  · rw [mkeys_mset_mem h]
    exact hd
  · rw [mkeys_mset_not_mem h]
    simp [List.nodup_append, hd, h]

/-! ## Characterization of the build phase of `getExecutionOrder` -/

theorem tdeg_append (es : List WorkflowEdge) (e : WorkflowEdge) (k : String) :
    tdeg (es ++ [e]) k = tdeg es k + (if e.target = k then 1 else 0) := by
  by_cases h : e.target = k <;> simp [tdeg, List.filter_append, h]

theorem outTargets_append (es : List WorkflowEdge) (e : WorkflowEdge) (s : String) :
    outTargets (es ++ [e]) s
      = outTargets es s ++ (if e.source = s then [e.target] else []) := by
  by_cases h : e.source = s <;> simp [outTargets, List.filter_append, h]

theorem tdeg_eq_zero_iff (es : List WorkflowEdge) (k : String) :
    tdeg es k = 0 ↔ ∀ e ∈ es, e.target ≠ k := by
  simp [tdeg, List.length_eq_zero, List.filter_eq_nil_iff]

/-- Invariant of the in-degree/adjacency maps after the node initialization
loop and a processed prefix `es` of the edge list. -/
structure BuildInv (ids : List String) (es : List WorkflowEdge)
    (m : List (String × Int) × List (String × List String)) : Prop where
  keysNodup : (mkeys m.1).Nodup
  keysMem : ∀ k, k ∈ mkeys m.1 ↔ (k ∈ ids ∨ ∃ e ∈ es, e.target = k)
  degVal : ∀ k ∈ mkeys m.1, mget k m.1 = some ((tdeg es k : Int))
  adjVal : ∀ s, (mget s m.2).getD [] = outTargets es s


theorem addEdge_fst (m : List (String × Int) × List (String × List String))
    (e : WorkflowEdge) :
    (addEdge m e).1 = mset e.target ((mget e.target m.1).getD 0 + 1) m.1 := rfl

theorem addEdge_snd (m : List (String × Int) × List (String × List String))
    (e : WorkflowEdge) :
    (addEdge m e).2
      = mset e.source ((mget e.source m.2).getD [] ++ [e.target]) m.2 := rfl

theorem exists_target_append {es : List WorkflowEdge} {e : WorkflowEdge}
    {k : String} :
    (∃ x ∈ es ++ [e], x.target = k) ↔ (∃ x ∈ es, x.target = k) ∨ e.target = k := by
  constructor
  · rintro ⟨x, hx, hxt⟩
    rcases List.mem_append.mp hx with hx | hx
    · exact Or.inl ⟨x, hx, hxt⟩
    · rw [List.mem_singleton] at hx
      subst hx
      exact Or.inr hxt
  · rintro (⟨x, hx, hxt⟩ | ht)
    · exact ⟨x, List.mem_append_left _ hx, hxt⟩
    · exact ⟨e, List.mem_append_right _ (List.mem_singleton_self _), ht⟩

theorem initMaps_aux (nodes : List WorkflowNode) :
    ∀ (L : List String) (m : List (String × Int) × List (String × List String)),
      (mkeys m.1).Nodup →
      (∀ k, k ∈ mkeys m.1 ↔ k ∈ L) →
      (∀ k ∈ mkeys m.1, mget k m.1 = some 0) →
      (∀ s, (mget s m.2).getD [] = []) →
      (mkeys (nodes.foldl (fun m n => (mset n.id 0 m.1, mset n.id [] m.2)) m).1).Nodup ∧
      (∀ k, k ∈ mkeys (nodes.foldl (fun m n => (mset n.id 0 m.1, mset n.id [] m.2)) m).1
        ↔ k ∈ L ++ nodes.map (fun n => n.id)) ∧
      (∀ k ∈ mkeys (nodes.foldl (fun m n => (mset n.id 0 m.1, mset n.id [] m.2)) m).1,
        mget k (nodes.foldl (fun m n => (mset n.id 0 m.1, mset n.id [] m.2)) m).1 = some 0) ∧
      (∀ s, (mget s (nodes.foldl (fun m n => (mset n.id 0 m.1, mset n.id [] m.2)) m).2).getD [] = []) := by
  induction nodes with
  | nil =>
    intro L m h1 h2 h3 h4
    simp only [List.foldl_nil, List.map_nil, List.append_nil]
    exact ⟨h1, h2, h3, h4⟩
  | cons n ns ih =>
    intro L m h1 h2 h3 h4
    simp only [List.foldl_cons, List.map_cons]
    have hmem2 : ∀ k, k ∈ mkeys (mset n.id (0 : Int) m.1) ↔ k ∈ L ++ [n.id] := by
      intro k
      by_cases hmem : n.id ∈ mkeys m.1
      · rw [mkeys_mset_mem hmem]
        have hnL : n.id ∈ L := (h2 n.id).mp hmem
        rw [h2 k]
        simp only [List.mem_append, List.mem_singleton]
        constructor
        · exact Or.inl
        · rintro (hk | hk)
          · exact hk
          · subst hk
            exact hnL
      · rw [mkeys_mset_not_mem hmem]
        simp only [List.mem_append, List.mem_singleton, h2 k]
    have hval2 : ∀ k ∈ mkeys (mset n.id (0 : Int) m.1),
        mget k (mset n.id (0 : Int) m.1) = some 0 := by
      intro k hk
      by_cases hke : k = n.id
      · subst hke
        exact mget_mset_self _ _ _
      · rw [mget_mset_ne hke]
        apply h3
        by_cases hmem : n.id ∈ mkeys m.1
        · rwa [mkeys_mset_mem hmem] at hk
        · rw [mkeys_mset_not_mem hmem] at hk
          rcases List.mem_append.mp hk with hk | hk
          · exact hk
          · rw [List.mem_singleton] at hk
            exact absurd hk hke
    have hadj2 : ∀ s, (mget s (mset n.id ([] : List String) m.2)).getD [] = [] := by
      intro s
      by_cases hse : s = n.id
      · subst hse
        rw [mget_mset_self]
        rfl
      · rw [mget_mset_ne hse]
        exact h4 s
    have step := ih (L ++ [n.id]) (mset n.id 0 m.1, mset n.id [] m.2)
      (nodup_mkeys_mset h1 0) hmem2 hval2 hadj2
    refine ⟨step.1, ?_, step.2.2.1, step.2.2.2⟩
    intro k
    rw [step.2.1 k]
    simp [List.mem_append, or_assoc]

theorem initMaps_inv (nodes : List WorkflowNode) :
    BuildInv (nodes.map fun n => n.id) [] (initMaps nodes) := by
  have h := initMaps_aux nodes [] ([], [])
    (by simp) (by simp) (by simp) (by intro s; simp [mget])
  rw [show initMaps nodes
      = nodes.foldl (fun m n => (mset n.id 0 m.1, mset n.id [] m.2)) ([], [])
    from rfl]
  refine ⟨h.1, ?_, ?_, ?_⟩
  · intro k
    rw [h.2.1 k]
    simp
  · intro k hk
    have := h.2.2.1 k hk
    simpa [tdeg] using this
  · intro s
    have := h.2.2.2 s
    simpa [outTargets] using this

theorem addEdge_inv {ids : List String} {es : List WorkflowEdge}
    {m : List (String × Int) × List (String × List String)} {e : WorkflowEdge}
    (h : BuildInv ids es m) : BuildInv ids (es ++ [e]) (addEdge m e) := by
  obtain ⟨h1, h2, h3, h4⟩ := h
  have hkeys : ∀ k, k ∈ mkeys (addEdge m e).1
      ↔ (k ∈ ids ∨ ∃ x ∈ es ++ [e], x.target = k) := by
    intro k
    rw [addEdge_fst]
    by_cases hmem : e.target ∈ mkeys m.1
    · rw [mkeys_mset_mem hmem, h2 k, exists_target_append]
      constructor
      · rintro (hk | hk)
        · exact Or.inl hk
        · exact Or.inr (Or.inl hk)
      · rintro (hk | hk | hk)
        · exact Or.inl hk
        · exact Or.inr hk
        · subst hk
          exact (h2 e.target).mp hmem
    · rw [mkeys_mset_not_mem hmem, exists_target_append]
      simp only [List.mem_append, List.mem_singleton, h2 k]
      constructor
      · rintro ((hk | hk) | hk)
        · exact Or.inl hk
        · exact Or.inr (Or.inl hk)
        · subst hk
          exact Or.inr (Or.inr rfl)
      · rintro (hk | hk | hk)
        · exact Or.inl (Or.inl hk)
        · exact Or.inl (Or.inr hk)
        · exact Or.inr hk.symm
  constructor
  · rw [addEdge_fst]
    exact nodup_mkeys_mset h1 _
  · exact hkeys
  · intro k hk
    rw [addEdge_fst]
    by_cases hke : k = e.target
    · rw [hke, mget_mset_self]
      by_cases hmem : e.target ∈ mkeys m.1
      · rw [h3 e.target hmem]
        simp [tdeg_append]
      · rw [mget_eq_none_of_not_mem hmem]
        have htz : tdeg es e.target = 0 := by
          rw [tdeg_eq_zero_iff]
          intro e' he' hte
          exact hmem ((h2 e.target).mpr (Or.inr ⟨e', he', hte⟩))
        simp [tdeg_append, htz]
    · rw [mget_mset_ne hke]
      have hkm : k ∈ mkeys m.1 := by
        rw [addEdge_fst] at hk
        by_cases hmem : e.target ∈ mkeys m.1
        · rwa [mkeys_mset_mem hmem] at hk
        · rw [mkeys_mset_not_mem hmem] at hk
          rcases List.mem_append.mp hk with hk | hk
          · exact hk
          · rw [List.mem_singleton] at hk
            exact absurd hk hke
      rw [h3 k hkm, tdeg_append]
      have : ¬ e.target = k := fun hh => hke hh.symm
      simp [this]
  · intro s
    rw [addEdge_snd]
    by_cases hse : s = e.source
    · subst hse
      rw [mget_mset_self, Option.getD_some, h4, outTargets_append]
      simp
    · rw [mget_mset_ne hse, h4, outTargets_append]
      have : ¬ e.source = s := fun hh => hse hh.symm
      simp [this]

theorem buildMaps_aux {ids : List String} :
    ∀ (es : List WorkflowEdge) (pre : List WorkflowEdge)
      (m : List (String × Int) × List (String × List String)),
      BuildInv ids pre m → BuildInv ids (pre ++ es) (es.foldl addEdge m) := by
  intro es
  induction es with
  | nil =>
    intro pre m h
    simpa using h
  | cons e es ih =>
    intro pre m h
    have step := @addEdge_inv ids pre m e h
    have := ih (pre ++ [e]) (addEdge m e) step
    simpa using this

theorem buildMaps_inv (g : WorkflowGraph) :
    BuildInv (g.nodes.map fun n => n.id) g.edges (buildMaps g) := by
  have h := @buildMaps_aux (g.nodes.map fun n => n.id) g.edges []
    (initMaps g.nodes) (initMaps_inv g.nodes)
  rw [show buildMaps g = g.edges.foldl addEdge (initMaps g.nodes) from rfl]
  simpa using h

/-! ## The inner neighbor loop -/

theorem processNeighbors_keys :
    ∀ (T : List String) (ind : List (String × Int)) (queue : List String),
      (∀ t ∈ T, t ∈ mkeys ind) →
      mkeys (processNeighbors T ind queue).1 = mkeys ind := by
  intro T
  induction T with
  | nil =>
    intro ind queue _
    rfl
  | cons t ts ih =>
    intro ind queue hT
    have ht : t ∈ mkeys ind := hT t (List.mem_cons_self _ _)
    simp only [processNeighbors]
    rw [ih _ _ (fun x hx => by
      rw [mkeys_mset_mem ht]
      exact hT x (List.mem_cons_of_mem _ hx))]
    exact mkeys_mset_mem ht _

theorem processNeighbors_mget :
    ∀ (T : List String) (ind : List (String × Int)) (queue : List String),
      (∀ t ∈ T, t ∈ mkeys ind) →
      ∀ k, mget k (processNeighbors T ind queue).1
        = (mget k ind).map (fun v => v - (T.count k : Int)) := by
  intro T
  induction T with
  | nil =>
    intro ind queue _ k
    simp [processNeighbors]
  | cons t ts ih =>
    intro ind queue hT k
    have ht : t ∈ mkeys ind := hT t (List.mem_cons_self _ _)
    obtain ⟨v, hv⟩ := mget_isSome_of_mem ht
    simp only [processNeighbors]
    rw [ih _ _ (fun x hx => by
      rw [mkeys_mset_mem ht]
      exact hT x (List.mem_cons_of_mem _ hx))]
    by_cases hk : k = t
    · subst hk
      rw [mget_mset_self, hv, List.count_cons]
      simp only [hv, Option.getD_some, Option.map_some', beq_self_eq_true,
        if_true]
      congr 1
      push_cast
      omega
    · rw [mget_mset_ne hk, List.count_cons]
      have : ¬ (t == k) = true := by
        simp only [beq_iff_eq]
        exact fun hh => hk hh.symm
      simp [this]

theorem processNeighbors_queue :
    ∀ (T : List String) (ind : List (String × Int)) (queue : List String),
      (∀ t ∈ T, ∃ v : Int, mget t ind = some v ∧ (T.count t : Int) ≤ v) →
      ∃ newly, (processNeighbors T ind queue).2 = queue ++ newly ∧ newly.Nodup ∧
        ∀ x, x ∈ newly ↔ (x ∈ T ∧ mget x ind = some ((T.count x : Int))) := by
  intro T
  induction T with
  | nil =>
    intro ind queue _
    exact ⟨[], by simp [processNeighbors], List.nodup_nil, by simp⟩
  | cons t ts ih =>
    intro ind queue hD
    obtain ⟨v, hv, hvc⟩ := hD t (List.mem_cons_self _ _)
    have hcnt : (List.count t (t :: ts) : Int) = (List.count t ts : Int) + 1 := by
      rw [List.count_cons]
      simp
    simp only [processNeighbors, hv, Option.getD_some]
    by_cases hnd : v - 1 = 0
    · have hv1 : v = 1 := by omega
      have hts0 : List.count t ts = 0 := by
        rw [hcnt, hv1] at hvc
        omega
      have htts : t ∉ ts := List.count_eq_zero.mp hts0
      have hD' : ∀ x ∈ ts, ∃ w : Int,
          mget x (mset t (v - 1) ind) = some w ∧ (ts.count x : Int) ≤ w := by
        intro x hx
        have hxt : x ≠ t := fun hh => htts (hh ▸ hx)
        obtain ⟨w, hw, hwc⟩ := hD x (List.mem_cons_of_mem _ hx)
        refine ⟨w, by rw [mget_mset_ne hxt]; exact hw, ?_⟩
        calc (ts.count x : Int) ≤ ((t :: ts).count x : Int) := by
              rw [List.count_cons]
              split <;> push_cast <;> omega
          _ ≤ w := hwc
      obtain ⟨newly, hq, hnodup, hchar⟩ := ih (mset t (v - 1) ind) (queue ++ [t]) hD'
      refine ⟨t :: newly, ?_, ?_, ?_⟩
      · rw [if_pos hnd, hq]
        simp
      · refine List.nodup_cons.mpr ⟨?_, hnodup⟩
        intro hmem
        exact htts ((hchar t).mp hmem).1
      · intro x
        by_cases hx : x = t
        · subst hx
          simp only [List.mem_cons, true_or, true_and]
          constructor
          · intro _
            rw [hv, hcnt, hts0, hv1]
            norm_num
          · intro _
            trivial
        · simp only [List.mem_cons]
          rw [hchar x]
          have hbq : ¬ (t == x) = true := by
            simp only [beq_iff_eq]
            exact fun hh => hx hh.symm
          constructor
          · rintro (hxe | ⟨hxts, hxv⟩)
            · exact absurd hxe hx
            · rw [mget_mset_ne hx] at hxv
              refine ⟨Or.inr hxts, ?_⟩
              rw [hxv, List.count_cons]
              simp [hbq]
          · rintro ⟨hxor, hxv⟩
            rcases hxor with hxe | hxts
            · exact absurd hxe hx
            · refine Or.inr ⟨hxts, ?_⟩
              rw [mget_mset_ne hx, hxv, List.count_cons]
              simp [hbq]
    · have hD' : ∀ x ∈ ts, ∃ w : Int,
          mget x (mset t (v - 1) ind) = some w ∧ (ts.count x : Int) ≤ w := by
        intro x hx
        by_cases hxt : x = t
        · subst hxt
          refine ⟨v - 1, mget_mset_self _ _ _, ?_⟩
          rw [hcnt] at hvc
          omega
        · obtain ⟨w, hw, hwc⟩ := hD x (List.mem_cons_of_mem _ hx)
          refine ⟨w, by rw [mget_mset_ne hxt]; exact hw, ?_⟩
          calc (ts.count x : Int) ≤ ((t :: ts).count x : Int) := by
                rw [List.count_cons]
                split <;> push_cast <;> omega
            _ ≤ w := hwc
      obtain ⟨newly, hq, hnodup, hchar⟩ := ih (mset t (v - 1) ind) queue hD'
      refine ⟨newly, by rw [if_neg hnd, hq], hnodup, ?_⟩
      intro x
      rw [hchar x]
      by_cases hx : x = t
      · subst hx
        constructor
        · rintro ⟨hxts, hxv⟩
          rw [mget_mset_self] at hxv
          have : v - 1 = (ts.count x : Int) := by
            exact Option.some.inj hxv
          refine ⟨List.mem_cons_self _ _, ?_⟩
          rw [hv, hcnt]
          congr 1
          omega
        · rintro ⟨_, hxv⟩
          rw [hv] at hxv
          have hveq : v = ((x :: ts).count x : Int) := Option.some.inj hxv
          rw [hcnt] at hveq
          have hmem : x ∈ ts := by
            by_contra hnot
            rw [List.count_eq_zero.mpr hnot] at hveq
            simp at hveq
            omega
          refine ⟨hmem, ?_⟩
          rw [mget_mset_self]
          congr 1
          omega
      · constructor
        · rintro ⟨hxts, hxv⟩
          rw [mget_mset_ne hx] at hxv
          refine ⟨List.mem_cons_of_mem _ hxts, ?_⟩
          rw [hxv, List.count_cons]
          have : ¬ (t == x) = true := by
            simp only [beq_iff_eq]
            exact fun hh => hx hh.symm
          simp [this]
        · rintro ⟨hxts, hxv⟩
          rcases List.mem_cons.mp hxts with hxts | hxts
          · exact absurd hxts hx
          · refine ⟨hxts, ?_⟩
            rw [mget_mset_ne hx, hxv, List.count_cons]
            have : ¬ (t == x) = true := by
              simp only [beq_iff_eq]
              exact fun hh => hx hh.symm
            simp [this]


/-! ## The Kahn loop invariant -/

/-- Number of edges from `c` to `k`. -/
def scount (g : WorkflowGraph) (c k : String) : Nat :=
  (g.edges.filter (fun e => e.source = c ∧ e.target = k)).length

theorem count_outTargets (es : List WorkflowEdge) (c k : String) :
    List.count k (outTargets es c)
      = (es.filter (fun e => e.source = c ∧ e.target = k)).length := by
  induction es with
  | nil => rfl
  | cons e es ih =>
    simp only [outTargets, List.filter_cons] at *
    by_cases hs : e.source = c
    · by_cases ht : e.target = k
      · have h1 : (decide (e.source = c) = true) := by simp [hs]
        have h3 : (decide (e.source = c ∧ e.target = k) = true) := by
          simp [hs, ht]
        have hbq : (e.target == k) = true := by simp [ht]
        simp only [h1, h3, if_pos, List.map_cons, List.count_cons, hbq,
          if_true, List.length_cons]
        omega
      · have h1 : (decide (e.source = c) = true) := by simp [hs]
        have h3 : ¬ (decide (e.source = c ∧ e.target = k) = true) := by
          simp [ht]
        have hbq : ¬ ((e.target == k) = true) := by simp [ht]
        simp only [h1, h3, if_pos, if_neg, List.map_cons, List.count_cons, hbq,
          if_false]
        simpa using ih
    · have h1 : ¬ (decide (e.source = c) = true) := by simp [hs]
      have h3 : ¬ (decide (e.source = c ∧ e.target = k) = true) := by
        simp [hs]
      simp only [h1, h3, if_neg]
      exact ih

theorem mem_outTargets {es : List WorkflowEdge} {c k : String} :
    k ∈ outTargets es c ↔ ∃ e ∈ es, e.source = c ∧ e.target = k := by
  simp only [outTargets, List.mem_map, List.mem_filter, decide_eq_true_eq]
  constructor
  · rintro ⟨e, ⟨he, hs⟩, ht⟩
    exact ⟨e, he, hs, ht⟩
  · rintro ⟨e, he, hs, ht⟩
    exact ⟨e, ⟨he, hs⟩, ht⟩

theorem remDeg_nil (g : WorkflowGraph) (k : String) :
    remDeg g [] k = tdeg g.edges k := by
  unfold remDeg tdeg
  congr 1
  apply List.filter_congr
  intro e _
  simp

theorem remDeg_eq_zero_iff (g : WorkflowGraph) (P : List String) (k : String) :
    remDeg g P k = 0 ↔ ∀ e ∈ g.edges, e.target = k → e.source ∈ P := by
  unfold remDeg
  rw [List.length_eq_zero, List.filter_eq_nil_iff]
  constructor
  · intro h e he ht
    by_contra hs
    exact h e he (by simp [ht, hs])
  · intro h e he
    simp only [decide_eq_true_eq, not_and, not_not]
    intro ht
    exact h e he ht

theorem remDeg_snoc (g : WorkflowGraph) {P : List String} {c : String}
    (hc : c ∉ P) (k : String) :
    remDeg g P k = remDeg g (P ++ [c]) k + scount g c k := by
  unfold remDeg scount
  induction g.edges with
  | nil => rfl
  | cons e es ih =>
    simp only [List.filter_cons]
    by_cases ht : e.target = k
    · by_cases hp : e.source ∈ P
      · have h1 : ¬ (decide (e.target = k ∧ e.source ∉ P) = true) := by
          simp [ht, hp]
        have h2 : ¬ (decide (e.target = k ∧ e.source ∉ P ++ [c]) = true) := by
          simp only [decide_eq_true_eq, not_and, not_not]
          intro _
          exact List.mem_append_left _ hp
        have h3 : ¬ (decide (e.source = c ∧ e.target = k) = true) := by
          simp only [decide_eq_true_eq, not_and]
          intro hsc
          exact absurd (hsc ▸ hp) hc
        rw [if_neg h1, if_neg h2, if_neg h3]
        exact ih
      · by_cases hsc : e.source = c
        · have h1 : (decide (e.target = k ∧ e.source ∉ P) = true) := by
            simp [ht, hp]
          have h2 : ¬ (decide (e.target = k ∧ e.source ∉ P ++ [c]) = true) := by
            simp [ht, hsc]
          have h3 : (decide (e.source = c ∧ e.target = k) = true) := by
            simp [ht, hsc]
          rw [if_pos h1, if_neg h2, if_pos h3]
          simp only [List.length_cons]
          omega
        · have h1 : (decide (e.target = k ∧ e.source ∉ P) = true) := by
            simp [ht, hp]
          have h2 : (decide (e.target = k ∧ e.source ∉ P ++ [c]) = true) := by
            simp only [decide_eq_true_eq]
            refine ⟨ht, ?_⟩
            intro hmem
            rcases List.mem_append.mp hmem with hmem | hmem
            · exact hp hmem
            · rw [List.mem_singleton] at hmem
              exact hsc hmem
          have h3 : ¬ (decide (e.source = c ∧ e.target = k) = true) := by
            simp [hsc]
          rw [if_pos h1, if_pos h2, if_neg h3]
          simp only [List.length_cons]
          omega
    · have h1 : ¬ (decide (e.target = k ∧ e.source ∉ P) = true) := by simp [ht]
      have h2 : ¬ (decide (e.target = k ∧ e.source ∉ P ++ [c]) = true) := by
        simp [ht]
      have h3 : ¬ (decide (e.source = c ∧ e.target = k) = true) := by simp [ht]
      rw [if_neg h1, if_neg h2, if_neg h3]
      exact ih

theorem snoc_split {P : List String} {c t : String} {P₁ P₂ : List String}
    (h : P ++ [c] = P₁ ++ t :: P₂) :
    (∃ P₃, P = P₁ ++ t :: P₃ ∧ P₂ = P₃ ++ [c]) ∨ (P₁ = P ∧ t = c ∧ P₂ = []) := by
  rcases List.append_eq_append_iff.mp h with ⟨a, ha1, ha2⟩ | ⟨a, ha1, ha2⟩
  · cases a with
    | nil =>
      simp only [List.append_nil] at ha1
      simp only [List.nil_append] at ha2
      injection ha2 with hct hP
      exact Or.inr ⟨ha1, hct.symm, hP.symm⟩
    | cons x xs =>
      exfalso
      have hl := congrArg List.length ha2
      simp [List.length_append] at hl
  · cases a with
    | nil =>
      simp only [List.append_nil] at ha1
      simp only [List.nil_append] at ha2
      injection ha2 with hct hP
      exact Or.inr ⟨ha1.symm, hct, hP⟩
    | cons y ys =>
      simp only [List.cons_append] at ha2
      injection ha2 with hty hP
      subst hty
      exact Or.inl ⟨ys, by rw [ha1], hP⟩


/-- Invariant of the Kahn loop state: `P` is the list of dequeued keys so
far (in dequeue order), `queue` the pending queue, `ind` the current
in-degree map, `K` the fixed key list, `adjm` the fixed adjacency map. -/
structure KInv (g : WorkflowGraph) (K : List String)
    (adjm : List (String × List String)) (fuel : Nat) (queue : List String)
    (ind : List (String × Int)) (P : List String) : Prop where
  adjVal : ∀ s, (mget s adjm).getD [] = outTargets g.edges s
  keysEq : mkeys ind = K
  keysNodup : K.Nodup
  keysClosed : ∀ e ∈ g.edges, e.target ∈ K
  pqSub : ∀ x ∈ P ++ queue, x ∈ K
  pqNodup : (P ++ queue).Nodup
  degVal : ∀ k ∈ K, mget k ind = some ((remDeg g P k : Int))
  zeroQ : ∀ k ∈ K, k ∉ P → remDeg g P k = 0 → k ∈ queue
  zeroPQ : ∀ x ∈ P ++ queue, remDeg g P x = 0
  fuelEq : fuel + P.length = K.length
  ordInv : ∀ e ∈ g.edges, ∀ P₁ P₂, P = P₁ ++ e.target :: P₂ → e.source ∈ P₁

/-- What is true of the dequeue sequence when the Kahn loop stops. -/
structure KEnd (g : WorkflowGraph) (K : List String) (P : List String) : Prop where
  sub : ∀ x ∈ P, x ∈ K
  nodup : P.Nodup
  stuck : ∀ k ∈ K, k ∉ P → ∃ e ∈ g.edges, e.target = k ∧ e.source ∉ P
  ordered : ∀ e ∈ g.edges, ∀ P₁ P₂, P = P₁ ++ e.target :: P₂ → e.source ∈ P₁

theorem KInv_step {g : WorkflowGraph} {K : List String}
    {adjm : List (String × List String)} {fuel : Nat} {current : String}
    {rest : List String} {ind : List (String × Int)} {P : List String}
    (inv : KInv g K adjm (fuel + 1) (current :: rest) ind P) :
    KInv g K adjm fuel
      (processNeighbors ((mget current adjm).getD []) ind rest).2
      (processNeighbors ((mget current adjm).getD []) ind rest).1
      (P ++ [current]) := by
  obtain ⟨adjVal, keysEq, keysNodup, keysClosed, pqSub, pqNodup, degVal,
    zeroQ, zeroPQ, fuelEq, ordInv⟩ := inv
  rw [adjVal current]
  have hcurmem : current ∈ P ++ current :: rest := by simp
  have hcurK : current ∈ K := pqSub _ hcurmem
  have hsplitnd := List.nodup_append.mp pqNodup
  have hPnd : P.Nodup := hsplitnd.1
  have hcrnd := List.nodup_cons.mp hsplitnd.2.1
  have hcurRest : current ∉ rest := hcrnd.1
  have hPdisj := hsplitnd.2.2
  have hcurP : current ∉ P := fun hc => hPdisj hc (List.mem_cons_self _ _)
  have hcurQ0 : remDeg g P current = 0 := zeroPQ current hcurmem
  have hTmem : ∀ t ∈ outTargets g.edges current, t ∈ K := by
    intro t ht
    rcases mem_outTargets.mp ht with ⟨e, he, _, htg⟩
    exact htg ▸ keysClosed e he
  have hTkeys : ∀ t ∈ outTargets g.edges current, t ∈ mkeys ind := by
    intro t ht
    rw [keysEq]
    exact hTmem t ht
  have hcount : ∀ k, (outTargets g.edges current).count k = scount g current k := by
    intro k
    exact count_outTargets g.edges current k
  have hdecomp : ∀ k, remDeg g P k = remDeg g (P ++ [current]) k + scount g current k :=
    fun k => remDeg_snoc g hcurP k
  have hHD : ∀ t ∈ outTargets g.edges current, ∃ v : Int,
      mget t ind = some v ∧ ((outTargets g.edges current).count t : Int) ≤ v := by
    intro t ht
    refine ⟨(remDeg g P t : Int), degVal t (hTmem t ht), ?_⟩
    rw [hcount t]
    have := hdecomp t
    omega
  obtain ⟨newly, hq, hnewnd, hchar⟩ :=
    processNeighbors_queue (outTargets g.edges current) ind rest hHD
  have hchar2 : ∀ x, x ∈ newly ↔
      (0 < scount g current x ∧ remDeg g (P ++ [current]) x = 0) := by
    intro x
    rw [hchar x]
    constructor
    · rintro ⟨hxT, hxv⟩
      have hxK := hTmem x hxT
      rw [degVal x hxK] at hxv
      have hxc : remDeg g P x = (outTargets g.edges current).count x := by
        exact_mod_cast Option.some.inj hxv
      rw [hcount x] at hxc
      have hd := hdecomp x
      have hpos : 0 < scount g current x := by
        have hc := List.count_pos_iff.mpr hxT
        rw [hcount x] at hc
        exact hc
      exact ⟨hpos, by omega⟩
    · rintro ⟨hpos, hzero⟩
      have hxT : x ∈ outTargets g.edges current := by
        apply List.count_pos_iff.mp
        rw [hcount x]
        exact hpos
      refine ⟨hxT, ?_⟩
      rw [degVal x (hTmem x hxT), hcount x]
      have hd := hdecomp x
      have hce : remDeg g P x = scount g current x := by omega
      rw [hce]
  have hnewdisj : ∀ x ∈ newly, x ∉ P ++ current :: rest := by
    intro x hx hmem
    obtain ⟨hpos, _⟩ := (hchar2 x).mp hx
    have h0 := zeroPQ x hmem
    have hd := hdecomp x
    omega
  have hmget2 := processNeighbors_mget (outTargets g.edges current) ind rest hTkeys
  have hkeys2 := processNeighbors_keys (outTargets g.edges current) ind rest hTkeys
  refine ⟨adjVal, ?_, keysNodup, keysClosed, ?_, ?_, ?_, ?_, ?_, ?_, ?_⟩
  · rw [hkeys2]
    exact keysEq
  · intro x hx
    rw [hq] at hx
    rcases List.mem_append.mp hx with hx | hx
    · rcases List.mem_append.mp hx with hx | hx
      · exact pqSub x (List.mem_append_left _ hx)
      · rw [List.mem_singleton] at hx
        subst hx
        exact hcurK
    · rcases List.mem_append.mp hx with hx | hx
      · exact pqSub x (List.mem_append_right _ (List.mem_cons_of_mem _ hx))
      · obtain ⟨hpos, _⟩ := (hchar2 x).mp hx
        have hxT : x ∈ outTargets g.edges current := by
          apply List.count_pos_iff.mp
          rw [hcount x]
          exact hpos
        exact hTmem x hxT
  · rw [hq]
    rw [show P ++ [current] ++ (rest ++ newly)
        = ((P ++ [current]) ++ rest) ++ newly by
      simp [List.append_assoc]]
    rw [List.nodup_append]
    refine ⟨?_, hnewnd, ?_⟩
    · rw [show P ++ [current] ++ rest = P ++ current :: rest by simp]
      exact pqNodup
    · intro x hx hx2
      apply hnewdisj x hx2
      rw [show P ++ [current] ++ rest = P ++ current :: rest by simp] at hx
      exact hx
  · intro k hk
    rw [hmget2 k, degVal k hk, hcount k]
    simp only [Option.map_some']
    congr 1
    have hd := hdecomp k
    omega
  · intro k hk hknotP2 hzero
    rw [hq]
    by_cases hpos : 0 < scount g current k
    · exact List.mem_append_right _ ((hchar2 k).mpr ⟨hpos, hzero⟩)
    · have hsc0 : scount g current k = 0 := by omega
      have hd := hdecomp k
      have hz : remDeg g P k = 0 := by omega
      have hknotP : k ∉ P := fun hmem => hknotP2 (List.mem_append_left _ hmem)
      have hkq := zeroQ k hk hknotP hz
      rcases List.mem_cons.mp hkq with hkc | hkc
      · exfalso
        apply hknotP2
        subst hkc
        exact List.mem_append_right _ (List.mem_singleton_self _)
      · exact List.mem_append_left _ hkc
  · intro x hx
    rw [hq] at hx
    have hd := hdecomp x
    rcases List.mem_append.mp hx with hx | hx
    · rcases List.mem_append.mp hx with hx | hx
      · have := zeroPQ x (List.mem_append_left _ hx)
        omega
      · rw [List.mem_singleton] at hx
        subst hx
        omega
    · rcases List.mem_append.mp hx with hx | hx
      · have := zeroPQ x (List.mem_append_right _ (List.mem_cons_of_mem _ hx))
        omega
      · exact ((hchar2 x).mp hx).2
  · simp only [List.length_append, List.length_singleton]
    omega
  · intro e he P₁ P₂ hsplit
    rcases snoc_split hsplit with ⟨P₃, hP, _⟩ | ⟨hP₁, htc, _⟩
    · exact ordInv e he P₁ P₃ hP
    · rw [hP₁]
      exact (remDeg_eq_zero_iff g P e.target).mp
        (by rw [htc]; exact hcurQ0) e he rfl

theorem kahnLoop_end {g : WorkflowGraph} {K : List String}
    {adjm : List (String × List String)} :
    ∀ (fuel : Nat) (queue : List String) (ind : List (String × Int))
      (P : List String),
      KInv g K adjm fuel queue ind P → KEnd g K (kahnLoop adjm fuel queue ind P) := by
  intro fuel
  induction fuel with
  | zero =>
    intro queue ind P inv
    rw [show kahnLoop adjm 0 queue ind P = P from rfl]
    have hsub : ∀ x ∈ P, x ∈ K := fun x hx => inv.pqSub x (List.mem_append_left _ hx)
    have hnodup : P.Nodup := (List.nodup_append.mp inv.pqNodup).1
    have hlen : P.length = K.length := by
      have := inv.fuelEq
      omega
    have hcover : ∀ k ∈ K, k ∈ P := by
      intro k hk
      have hsubF : P.toFinset ⊆ K.toFinset := by
        intro a ha
        rw [List.mem_toFinset] at ha ⊢
        exact hsub a ha
      have hcards : K.toFinset.card ≤ P.toFinset.card := by
        rw [List.toFinset_card_of_nodup hnodup, List.toFinset_card_of_nodup inv.keysNodup]
        omega
      have heq := Finset.eq_of_subset_of_card_le hsubF hcards
      rw [← List.mem_toFinset, ← heq, List.mem_toFinset] at hk
      exact hk
    exact ⟨hsub, hnodup, fun k hk hknp => absurd (hcover k hk) hknp, inv.ordInv⟩
  | succ fuel ih =>
    intro queue ind P inv
    cases queue with
    | nil =>
      rw [show kahnLoop adjm (fuel + 1) [] ind P = P from rfl]
      refine ⟨fun x hx => inv.pqSub x (List.mem_append_left _ hx), ?_, ?_, inv.ordInv⟩
      · have := inv.pqNodup
        simpa using this
      · intro k hk hknp
        have hz : remDeg g P k ≠ 0 := by
          intro h0
          have := inv.zeroQ k hk hknp h0
          simp at this
        have hpos : 0 < remDeg g P k := Nat.pos_of_ne_zero hz
        unfold remDeg at hpos
        obtain ⟨e, he⟩ := List.exists_mem_of_length_pos hpos
        rw [List.mem_filter] at he
        refine ⟨e, he.1, ?_⟩
        have h2 := he.2
        simp only [decide_eq_true_eq] at h2
        exact h2
    | cons current rest =>
      have step := KInv_step inv
      have hend := ih _ _ _ step
      rw [show kahnLoop adjm (fuel + 1) (current :: rest) ind P
          = kahnLoop adjm fuel
              (processNeighbors ((mget current adjm).getD []) ind rest).2
              (processNeighbors ((mget current adjm).getD []) ind rest).1
              (P ++ [current]) from rfl]
      exact hend

theorem filterMap_zero_eq (ind : List (String × Int)) :
    ind.filterMap (fun p => if p.2 = 0 then some p.1 else none)
      = (ind.filter (fun p => p.2 = 0)).map Prod.fst := by
  induction ind with
  | nil => rfl
  | cons p rest ih =>
    by_cases h : p.2 = 0
    · simp [List.filterMap_cons, List.filter_cons, h, ih]
    · simp [List.filterMap_cons, List.filter_cons, h, ih]

theorem kahn_init (g : WorkflowGraph) :
    KInv g (mkeys (buildMaps g).1) (buildMaps g).2 (buildMaps g).1.length
      ((buildMaps g).1.filterMap (fun p => if p.2 = 0 then some p.1 else none))
      (buildMaps g).1 [] := by
  obtain ⟨h1, h2, h3, h4⟩ := buildMaps_inv g
  have hseed : (buildMaps g).1.filterMap (fun p => if p.2 = 0 then some p.1 else none)
      = ((buildMaps g).1.filter (fun p => p.2 = 0)).map Prod.fst :=
    filterMap_zero_eq (buildMaps g).1
  refine ⟨h4, rfl, h1, ?_, ?_, ?_, ?_, ?_, ?_, ?_, ?_⟩
  · intro e he
    exact (h2 e.target).mpr (Or.inr ⟨e, he, rfl⟩)
  · intro x hx
    simp only [List.nil_append] at hx
    rw [hseed] at hx
    rcases List.mem_map.mp hx with ⟨p, hp, hpx⟩
    have hpind : p ∈ (buildMaps g).1 := (List.mem_filter.mp hp).1
    rw [← hpx]
    exact List.mem_map.mpr ⟨p, hpind, rfl⟩
  · simp only [List.nil_append]
    rw [hseed]
    have hsubl : ((buildMaps g).1.filter (fun p => p.2 = 0)).map Prod.fst
        |>.Sublist (mkeys (buildMaps g).1) :=
      List.Sublist.map _ (List.filter_sublist _)
    exact hsubl.nodup h1
  · intro k hk
    rw [h3 k hk]
    rw [remDeg_nil]
  · intro k hk _ hzero
    rw [remDeg_nil] at hzero
    have hval : mget k (buildMaps g).1 = some ((0 : Nat) : Int) := by
      rw [h3 k hk, hzero]
    have hentry : (k, ((0 : Nat) : Int)) ∈ (buildMaps g).1 := entry_mem_of_mget hval
    rw [hseed]
    apply List.mem_map.mpr
    refine ⟨(k, ((0 : Nat) : Int)), ?_, rfl⟩
    rw [List.mem_filter]
    exact ⟨hentry, by simp⟩
  · intro x hx
    simp only [List.nil_append] at hx
    rw [hseed] at hx
    rcases List.mem_map.mp hx with ⟨p, hp, hpx⟩
    rw [List.mem_filter] at hp
    have hp2 : p.2 = 0 := by
      have := hp.2
      simpa using this
    have hpind : p ∈ (buildMaps g).1 := hp.1
    have hentry : (x, p.2) ∈ (buildMaps g).1 := by
      rw [← hpx]
      exact hpind
    have hval := mget_of_entry_mem h1 hentry
    have hxk : x ∈ mkeys (buildMaps g).1 := mem_mkeys_of_mget hval
    rw [h3 x hxk] at hval
    have : ((tdeg g.edges x : Nat) : Int) = p.2 := Option.some.inj hval
    rw [hp2] at this
    rw [remDeg_nil]
    exact_mod_cast this
  · simp [mkeys]
  · intro e _ P₁ P₂ habs
    exact absurd habs.symm (by simp)


/-! ## Cycles in finite graphs -/

/-- In a finite set in which every element has an `r`-predecessor inside the
set, some element lies on an `r`-cycle (pigeonhole on a backward chain). -/
theorem exists_cycle_of_forall_pred {r : String → String → Prop} {S : Set String}
    (hfin : S.Finite) (hne : S.Nonempty)
    (hstep : ∀ x ∈ S, ∃ y ∈ S, r y x) :
    ∃ c ∈ S, Relation.TransGen r c c := by
  classical
  obtain ⟨x₀, hx₀⟩ := hne
  have hstep2 : ∀ p : {x // x ∈ S}, ∃ q : {x // x ∈ S}, r q.val p.val := by
    rintro ⟨x, hx⟩
    obtain ⟨y, hy, hr⟩ := hstep x hx
    exact ⟨⟨y, hy⟩, hr⟩
  choose f hf using hstep2
  let g : ℕ → {x // x ∈ S} := fun n => Nat.rec ⟨x₀, hx₀⟩ (fun _ p => f p) n
  have hgs : ∀ n, r (g (n + 1)).val (g n).val := fun n => hf (g n)
  have hreach : ∀ i j, i ≤ j → Relation.ReflTransGen r (g j).val (g i).val := by
    intro i j hij
    induction j, hij using Nat.le_induction with
    | base => exact Relation.ReflTransGen.refl
    | succ j hij ih => exact Relation.ReflTransGen.head (hgs j) ih
  haveI : Fintype {x // x ∈ S} := hfin.fintype
  have hcard : Fintype.card {x // x ∈ S}
      < Fintype.card (Fin (Fintype.card {x // x ∈ S} + 1)) := by
    simp
  obtain ⟨a, b, hab, heq⟩ := Fintype.exists_ne_map_eq_of_card_lt
    (fun i : Fin (Fintype.card {x // x ∈ S} + 1) => g i.val) hcard
  obtain ⟨i, j, hij, hgij⟩ : ∃ i j : ℕ, i < j ∧ g i = g j := by
    rcases lt_or_gt_of_ne hab with h | h
    · exact ⟨a.val, b.val, h, heq⟩
    · exact ⟨b.val, a.val, h, heq.symm⟩
  refine ⟨(g i).val, (g i).2, ?_⟩
  refine Relation.TransGen.tail' ?_ (hgs i)
  rw [hgij]
  exact hreach (i + 1) j (by omega)

/-! ## The node lookup map -/

theorem mem_mset {α : Type} {p : String × α} {k : String} {v : α}
    {m : List (String × α)} (h : p ∈ mset k v m) : p = (k, v) ∨ p ∈ m := by
  induction m with
  | nil =>
    simp [mset] at h
    exact Or.inl h
  | cons q rest ih =>
    by_cases hq : q.1 = k
    · rw [mset, if_pos hq] at h
      rcases List.mem_cons.mp h with h | h
      · exact Or.inl h
      · exact Or.inr (List.mem_cons_of_mem _ h)
    · rw [mset, if_neg hq] at h
      rcases List.mem_cons.mp h with h | h
      · exact Or.inr (h ▸ List.mem_cons_self _ _)
      · rcases ih h with h | h
        · exact Or.inl h
        · exact Or.inr (List.mem_cons_of_mem _ h)

theorem nodeMapOf_entry {nodes : List WorkflowNode} :
    ∀ k n, mget k (nodeMapOf nodes) = some n → n ∈ nodes ∧ n.id = k := by
  suffices h : ∀ (ns : List WorkflowNode) (m : List (String × WorkflowNode)),
      (∀ p ∈ m, p.2 ∈ nodes ∧ p.2.id = p.1) → (∀ x ∈ ns, x ∈ nodes) →
      ∀ k n, mget k (ns.foldl (fun m n => mset n.id n m) m) = some n →
        n ∈ nodes ∧ n.id = k by
    intro k n hkn
    exact h nodes [] (by simp) (fun _ hx => hx) k n hkn
  intro ns
  induction ns with
  | nil =>
    intro m hm _ k n hkn
    exact hm (k, n) (entry_mem_of_mget hkn)
  | cons x ns ih =>
    intro m hm hns k n hkn
    refine ih (mset x.id x m) ?_ (fun y hy => hns y (List.mem_cons_of_mem _ hy)) k n hkn
    intro p hp
    rcases mem_mset hp with hp | hp
    · subst hp
      exact ⟨hns x (List.mem_cons_self _ _), rfl⟩
    · exact hm p hp

theorem foldl_mset_untouched {k : String} :
    ∀ (ns : List WorkflowNode) (m : List (String × WorkflowNode)),
      (∀ x ∈ ns, x.id ≠ k) →
      mget k (ns.foldl (fun m n => mset n.id n m) m) = mget k m := by
  intro ns
  induction ns with
  | nil =>
    intro m _
    rfl
  | cons x ns ih =>
    intro m hns
    rw [List.foldl_cons,
      ih (mset x.id x m) (fun y hy => hns y (List.mem_cons_of_mem _ hy)),
      mget_mset_ne (fun hh => hns x (List.mem_cons_self _ _) hh.symm)]

theorem nodeMapOf_get_self {nodes : List WorkflowNode}
    (hids : (nodes.map (fun n => n.id)).Nodup) :
    ∀ n ∈ nodes, mget n.id (nodeMapOf nodes) = some n := by
  suffices h : ∀ (ns : List WorkflowNode) (m : List (String × WorkflowNode)),
      (ns.map (fun n => n.id)).Nodup →
      ∀ n ∈ ns, mget n.id (ns.foldl (fun m n => mset n.id n m) m) = some n by
    intro n hn
    exact h nodes [] hids n hn
  intro ns
  induction ns with
  | nil =>
    intro m _ n hn
    simp at hn
  | cons x ns ih =>
    intro m hnd n hn
    simp only [List.map_cons, List.nodup_cons] at hnd
    rcases List.mem_cons.mp hn with hn | hn
    · subst hn
      rw [List.foldl_cons,
        foldl_mset_untouched ns (mset n.id n m)
          (fun y hy hh => hnd.1 (List.mem_map.mpr ⟨y, hy, hh⟩)),
        mget_mset_self]
    · rw [List.foldl_cons]
      exact ih (mset x.id x m) hnd.2 n hn

/-! ## filterMap helpers -/

theorem filterMap_eq_map_of_some {α β : Type} {l : List α} {f : α → Option β}
    {h : α → β} (hall : ∀ a ∈ l, f a = some (h a)) :
    l.filterMap f = l.map h := by
  induction l with
  | nil => rfl
  | cons a l ih =>
    rw [List.filterMap_cons, hall a (List.mem_cons_self _ _), List.map_cons,
      ih (fun x hx => hall x (List.mem_cons_of_mem _ hx))]

theorem map_id_filterMap {l : List String} {f : String → Option WorkflowNode}
    (hid : ∀ k n, f k = some n → n.id = k) :
    (l.filterMap f).map (fun n => n.id) = l.filter (fun k => (f k).isSome) := by
  induction l with
  | nil => rfl
  | cons a l ih =>
    rw [List.filterMap_cons, List.filter_cons]
    cases hfa : f a with
    | none => simpa [hfa] using ih
    | some n =>
      have : n.id = a := hid a n hfa
      simp [hfa, this, ih]

theorem sublist_of_mem_split {s t : String} {P₁ P₂ : List String}
    (hs : s ∈ P₁) : [s, t].Sublist (P₁ ++ t :: P₂) := by
  obtain ⟨u, v, huv⟩ := List.append_of_mem hs
  subst huv
  have h1 : [s, t].Sublist (s :: (v ++ t :: P₂)) := by
    refine List.Sublist.cons₂ s ?_
    have h2 : [t].Sublist (t :: P₂) := by
      exact List.Sublist.cons₂ t (List.nil_sublist _)
    exact h2.trans (List.sublist_append_right v _)
  have h3 : (s :: (v ++ t :: P₂)).Sublist (u ++ (s :: (v ++ t :: P₂))) :=
    List.sublist_append_right u _
  have h4 := h1.trans h3
  simpa using h4


/-! ## End-to-end characterization of `getExecutionOrder` -/

/-- The dequeue sequence produced by the Kahn loop of `getExecutionOrder`. -/
def kahnP (g : WorkflowGraph) : List String :=
  kahnLoop (buildMaps g).2 (buildMaps g).1.length
    ((buildMaps g).1.filterMap (fun p => if p.2 = 0 then some p.1 else none))
    (buildMaps g).1 []

/-- The node list emitted by the Kahn phase (before the cycle fallback). -/
def kahnResult (g : WorkflowGraph) : List WorkflowNode :=
  (kahnP g).filterMap (fun i => mget i (nodeMapOf g.nodes))

theorem getExecutionOrder_eq (g : WorkflowGraph) :
    getExecutionOrder g =
      if (kahnResult g).length < g.nodes.length then
        g.nodes.foldl
          (fun res n => if res.any (fun m => m.id = n.id) then res else res ++ [n])
          (kahnResult g)
      else kahnResult g := rfl

theorem kahnP_end (g : WorkflowGraph) : KEnd g (mkeys (buildMaps g).1) (kahnP g) :=
  kahnLoop_end _ _ _ _ (kahn_init g)

theorem mkeys_buildMaps_eq {g : WorkflowGraph}
    (htgt : ∀ e ∈ g.edges, e.target ∈ g.nodes.map (fun n => n.id)) :
    ∀ k, k ∈ mkeys (buildMaps g).1 ↔ k ∈ g.nodes.map (fun n => n.id) := by
  intro k
  rw [(buildMaps_inv g).keysMem k]
  constructor
  · rintro (h | ⟨e, he, ht⟩)
    · exact h
    · exact ht ▸ htgt e he
  · exact Or.inl

theorem kahnP_covers_of_acyclic {g : WorkflowGraph}
    (hsrc : ∀ e ∈ g.edges, e.source ∈ g.nodes.map (fun n => n.id))
    (htgt : ∀ e ∈ g.edges, e.target ∈ g.nodes.map (fun n => n.id))
    (hacyc : ¬ hasCycle g) :
    ∀ k ∈ mkeys (buildMaps g).1, k ∈ kahnP g := by
  by_contra hno
  push_neg at hno
  obtain ⟨k₀, hk₀K, hk₀P⟩ := hno
  have hfin : {x | x ∈ mkeys (buildMaps g).1 ∧ x ∉ kahnP g}.Finite :=
    (List.finite_toSet (mkeys (buildMaps g).1)).subset (fun x hx => hx.1)
  have hne : {x | x ∈ mkeys (buildMaps g).1 ∧ x ∉ kahnP g}.Nonempty :=
    ⟨k₀, hk₀K, hk₀P⟩
  have hstep : ∀ x ∈ {x | x ∈ mkeys (buildMaps g).1 ∧ x ∉ kahnP g},
      ∃ y ∈ {x | x ∈ mkeys (buildMaps g).1 ∧ x ∉ kahnP g}, edgeRel g y x := by
    rintro x ⟨hxK, hxP⟩
    obtain ⟨e, he, hte, hse⟩ := (kahnP_end g).stuck x hxK hxP
    refine ⟨e.source, ⟨(mkeys_buildMaps_eq htgt e.source).mpr (hsrc e he), hse⟩,
      ⟨e, he, rfl, hte⟩⟩
  obtain ⟨c, _, hcyc⟩ := exists_cycle_of_forall_pred hfin hne hstep
  exact hacyc ⟨c, hcyc⟩

theorem kahnP_mem_of_no_cyclic_ancestor {g : WorkflowGraph}
    (hsrc : ∀ e ∈ g.edges, e.source ∈ g.nodes.map (fun n => n.id))
    (htgt : ∀ e ∈ g.edges, e.target ∈ g.nodes.map (fun n => n.id))
    {t : String} (htK : t ∈ g.nodes.map (fun n => n.id))
    (hanc : ∀ c, Relation.TransGen (edgeRel g) c c →
      ¬ Relation.ReflTransGen (edgeRel g) c t) :
    t ∈ kahnP g := by
  by_contra htP
  have hfin : {x | x ∈ mkeys (buildMaps g).1 ∧ x ∉ kahnP g
      ∧ Relation.ReflTransGen (edgeRel g) x t}.Finite :=
    (List.finite_toSet (mkeys (buildMaps g).1)).subset (fun x hx => hx.1)
  have hne : {x | x ∈ mkeys (buildMaps g).1 ∧ x ∉ kahnP g
      ∧ Relation.ReflTransGen (edgeRel g) x t}.Nonempty :=
    ⟨t, (mkeys_buildMaps_eq htgt t).mpr htK, htP, Relation.ReflTransGen.refl⟩
  have hstep : ∀ x ∈ {x | x ∈ mkeys (buildMaps g).1 ∧ x ∉ kahnP g
      ∧ Relation.ReflTransGen (edgeRel g) x t},
      ∃ y ∈ {x | x ∈ mkeys (buildMaps g).1 ∧ x ∉ kahnP g
        ∧ Relation.ReflTransGen (edgeRel g) x t}, edgeRel g y x := by
    rintro x ⟨hxK, hxP, hxr⟩
    obtain ⟨e, he, hte, hse⟩ := (kahnP_end g).stuck x hxK hxP
    refine ⟨e.source, ⟨(mkeys_buildMaps_eq htgt e.source).mpr (hsrc e he), hse, ?_⟩,
      ⟨e, he, rfl, hte⟩⟩
    exact Relation.ReflTransGen.head ⟨e, he, rfl, hte⟩ hxr
  obtain ⟨c, hcS, hcyc⟩ := exists_cycle_of_forall_pred hfin hne hstep
  exact hanc c hcyc hcS.2.2

theorem kahnResult_mem {g : WorkflowGraph}
    (hids : (g.nodes.map (fun n => n.id)).Nodup) :
    ∀ n, n ∈ kahnResult g ↔ (n ∈ g.nodes ∧ n.id ∈ kahnP g) := by
  intro n
  rw [show kahnResult g = (kahnP g).filterMap (fun i => mget i (nodeMapOf g.nodes))
    from rfl]
  rw [List.mem_filterMap]
  constructor
  · rintro ⟨k, hk, hlook⟩
    obtain ⟨hn, hid⟩ := nodeMapOf_entry k n hlook
    exact ⟨hn, hid ▸ hk⟩
  · rintro ⟨hn, hid⟩
    exact ⟨n.id, hid, nodeMapOf_get_self hids n hn⟩

theorem kahnResult_ids_nodup (g : WorkflowGraph) :
    ((kahnResult g).map (fun n => n.id)).Nodup := by
  rw [show kahnResult g = (kahnP g).filterMap (fun i => mget i (nodeMapOf g.nodes))
    from rfl]
  rw [map_id_filterMap (fun k n h => (nodeMapOf_entry k n h).2)]
  exact List.Nodup.sublist (List.filter_sublist _) (kahnP_end g).nodup

theorem kahnResult_perm_of_covers {g : WorkflowGraph}
    (hids : (g.nodes.map (fun n => n.id)).Nodup)
    (htgt : ∀ e ∈ g.edges, e.target ∈ g.nodes.map (fun n => n.id))
    (hcov : ∀ k ∈ mkeys (buildMaps g).1, k ∈ kahnP g) :
    (kahnResult g).Perm g.nodes := by
  have hnodesnd : g.nodes.Nodup := List.Nodup.of_map _ hids
  have hresnd : (kahnResult g).Nodup := List.Nodup.of_map _ (kahnResult_ids_nodup g)
  rw [List.perm_ext_iff_of_nodup hresnd hnodesnd]
  intro n
  rw [kahnResult_mem hids n]
  constructor
  · exact And.left
  · intro hn
    refine ⟨hn, ?_⟩
    exact hcov n.id ((mkeys_buildMaps_eq htgt n.id).mpr (List.mem_map.mpr ⟨n, hn, rfl⟩))

theorem kahnResult_precedes {g : WorkflowGraph}
    (hids : (g.nodes.map (fun n => n.id)).Nodup)
    {e : WorkflowEdge} (he : e ∈ g.edges) (htP : e.target ∈ kahnP g)
    {ns nt : WorkflowNode} (hns : ns ∈ g.nodes) (hnt : nt ∈ g.nodes)
    (hs : ns.id = e.source) (ht : nt.id = e.target) :
    [ns, nt].Sublist (kahnResult g) := by
  obtain ⟨P₁, P₂, hsplit⟩ := List.append_of_mem htP
  have hsrcP : e.source ∈ P₁ := (kahnP_end g).ordered e he P₁ P₂ hsplit
  have hsub : [e.source, e.target].Sublist (kahnP g) := by
    rw [hsplit]
    exact sublist_of_mem_split hsrcP
  have hmap := hsub.filterMap (fun i => mget i (nodeMapOf g.nodes))
  have hlook_s : mget e.source (nodeMapOf g.nodes) = some ns := by
    rw [← hs]
    exact nodeMapOf_get_self hids ns hns
  have hlook_t : mget e.target (nodeMapOf g.nodes) = some nt := by
    rw [← ht]
    exact nodeMapOf_get_self hids nt hnt
  have hlist : [e.source, e.target].filterMap (fun i => mget i (nodeMapOf g.nodes))
      = [ns, nt] := by
    simp [List.filterMap_cons, hlook_s, hlook_t]
  rw [hlist] at hmap
  exact hmap

/-! ## Claim C1: the Scheduler on well-formed DAGs -/

/-- C1: for every well-formed DAG (edge endpoints present among the node
ids, node ids distinct as the data model requires, and no directed cycle),
`getExecutionOrder` returns a permutation of the node list in which the
source node of every edge appears before its target node. -/
theorem getExecutionOrder_topo_of_dag (g : WorkflowGraph)
    (hids : (g.nodes.map (fun n => n.id)).Nodup)
    (hsrc : ∀ e ∈ g.edges, e.source ∈ g.nodes.map (fun n => n.id))
    (htgt : ∀ e ∈ g.edges, e.target ∈ g.nodes.map (fun n => n.id))
    (hacyc : ¬ hasCycle g) :
    (getExecutionOrder g).Perm g.nodes ∧
      ∀ e ∈ g.edges, ∀ ns nt : WorkflowNode, ns ∈ g.nodes → nt ∈ g.nodes →
        ns.id = e.source → nt.id = e.target →
        [ns, nt].Sublist (getExecutionOrder g) := by
  have hcov := kahnP_covers_of_acyclic hsrc htgt hacyc
  have hperm := kahnResult_perm_of_covers hids htgt hcov
  have horder : getExecutionOrder g = kahnResult g := by
    rw [getExecutionOrder_eq, if_neg (by rw [hperm.length_eq]; exact lt_irrefl _)]
  constructor
  · rw [horder]
    exact hperm
  · intro e he ns nt hns hnt hs ht
    rw [horder]
    refine kahnResult_precedes hids he ?_ hns hnt hs ht
    exact hcov e.target ((mkeys_buildMaps_eq htgt e.target).mpr (htgt e he))

/-- A two-node chain used as the concrete well-formed DAG. -/
def wNode (i : String) : WorkflowNode :=
  { id := i, title := i, detail := i, category := .collect, status := .pending,
    tags := [] }

/-- A bare edge used by the concrete graphs. -/
def wEdge (i s t : String) : WorkflowEdge :=
  { id := i, source := s, target := t }

/-- The concrete DAG x → y. -/
def dagGraph : WorkflowGraph :=
  { nodes := [wNode "x", wNode "y"], edges := [wEdge "e1" "x" "y"] }

theorem dagGraph_acyclic : ¬ hasCycle dagGraph := by
  rintro ⟨v, hv⟩
  have hrel : ∀ a b, edgeRel dagGraph a b → a = "x" ∧ b = "y" := by
    rintro a b ⟨e, he, hs, ht⟩
    have he2 : e = wEdge "e1" "x" "y" := by
      simpa [dagGraph] using he
    subst he2
    exact ⟨hs.symm, ht.symm⟩
  obtain ⟨b, hb, hbr⟩ := (Relation.TransGen.head'_iff).mp hv
  have h1 := hrel v b hb
  rcases Relation.ReflTransGen.cases_head hbr with heq | ⟨c, hc, _⟩
  · exact absurd (h1.2.symm.trans (heq.trans h1.1)) (by decide)
  · have h2 := hrel b c hc
    exact absurd (h1.2.symm.trans h2.1) (by decide)

/-- Witness for C1 at the concrete DAG x → y. -/
theorem getExecutionOrder_topo_of_dag_witness :
    (getExecutionOrder dagGraph).Perm dagGraph.nodes ∧
      ∀ e ∈ dagGraph.edges, ∀ ns nt : WorkflowNode,
        ns ∈ dagGraph.nodes → nt ∈ dagGraph.nodes →
        ns.id = e.source → nt.id = e.target →
        [ns, nt].Sublist (getExecutionOrder dagGraph) :=
  getExecutionOrder_topo_of_dag dagGraph (by decide) (by decide) (by decide)
    dagGraph_acyclic


/-! ## The cycle fallback of `getExecutionOrder` -/

theorem fallback_eq :
    ∀ (nodes : List WorkflowNode) (res : List WorkflowNode),
      (nodes.map (fun n => n.id)).Nodup →
      nodes.foldl
        (fun res n => if res.any (fun m => m.id = n.id) then res else res ++ [n]) res
        = res ++ nodes.filter (fun n => ¬ res.any (fun m => m.id = n.id)) := by
  intro nodes
  induction nodes with
  | nil =>
    intro res _
    simp
  | cons n ns ih =>
    intro res hnd
    simp only [List.map_cons, List.nodup_cons] at hnd
    rw [List.foldl_cons, List.filter_cons]
    by_cases hany : res.any (fun m => m.id = n.id) = true
    · rw [if_pos hany, if_neg (by simp [hany]), ih res hnd.2]
    · rw [if_neg hany, if_pos (by simp [hany]), ih (res ++ [n]) hnd.2]
      have hcong : ns.filter (fun m => ¬ (res ++ [n]).any (fun p => p.id = m.id))
          = ns.filter (fun m => ¬ res.any (fun p => p.id = m.id)) := by
        apply List.filter_congr
        intro m hm
        have hne : ¬ (n.id = m.id) :=
          fun hh => hnd.1 (List.mem_map.mpr ⟨m, hm, hh.symm⟩)
        simp [List.any_append, hne]
      rw [hcong]
      simp

theorem cover_of_nodup_subset {l₁ l₂ : List String} (h₁ : l₁.Nodup)
    (h₂ : l₂.Nodup) (hsub : ∀ x ∈ l₁, x ∈ l₂) (hlen : l₂.length ≤ l₁.length) :
    ∀ x ∈ l₂, x ∈ l₁ := by
  intro x hx
  have hsubF : l₁.toFinset ⊆ l₂.toFinset := by
    intro a ha
    rw [List.mem_toFinset] at ha ⊢
    exact hsub a ha
  have hcards : l₂.toFinset.card ≤ l₁.toFinset.card := by
    rw [List.toFinset_card_of_nodup h₁, List.toFinset_card_of_nodup h₂]
    omega
  have heq := Finset.eq_of_subset_of_card_le hsubF hcards
  rw [← List.mem_toFinset, ← heq, List.mem_toFinset] at hx
  exact hx

/-- For every graph whose node ids are distinct, `getExecutionOrder` returns
a permutation of the node list (the fallback appends exactly the nodes the
Kahn phase missed). -/
theorem getExecutionOrder_perm (g : WorkflowGraph)
    (hids : (g.nodes.map (fun n => n.id)).Nodup) :
    (getExecutionOrder g).Perm g.nodes := by
  have hnodesnd : g.nodes.Nodup := List.Nodup.of_map _ hids
  have hresnd : (kahnResult g).Nodup := List.Nodup.of_map _ (kahnResult_ids_nodup g)
  have hmemres : ∀ n ∈ kahnResult g, n ∈ g.nodes :=
    fun n hn => ((kahnResult_mem hids n).mp hn).1
  have hinj := List.inj_on_of_nodup_map hids
  rw [getExecutionOrder_eq]
  by_cases hlt : (kahnResult g).length < g.nodes.length
  · rw [if_pos hlt, fallback_eq g.nodes (kahnResult g) hids]
    have hfilnd : (g.nodes.filter
        (fun n => ¬ (kahnResult g).any (fun m => m.id = n.id))).Nodup :=
      hnodesnd.filter _
    have hfinalnd : ((kahnResult g) ++ g.nodes.filter
        (fun n => ¬ (kahnResult g).any (fun m => m.id = n.id))).Nodup := by
      rw [List.nodup_append]
      refine ⟨hresnd, hfilnd, ?_⟩
      intro m hm hmf
      rw [List.mem_filter] at hmf
      have hpred := hmf.2
      simp only [decide_eq_true_eq] at hpred
      apply hpred
      exact List.any_eq_true.mpr ⟨m, hm, by simp⟩
    rw [List.perm_ext_iff_of_nodup hfinalnd hnodesnd]
    intro n
    constructor
    · intro hn
      rcases List.mem_append.mp hn with hn | hn
      · exact hmemres n hn
      · exact (List.mem_filter.mp hn).1
    · intro hn
      by_cases hany : (kahnResult g).any (fun m => m.id = n.id) = true
      · obtain ⟨m, hm, hmid⟩ := List.any_eq_true.mp hany
        simp only [decide_eq_true_eq] at hmid
        have : m = n := hinj (hmemres m hm) hn hmid
        exact List.mem_append_left _ (this ▸ hm)
      · refine List.mem_append_right _ ?_
        rw [List.mem_filter]
        exact ⟨hn, by simp [hany]⟩
  · rw [if_neg hlt]
    push_neg at hlt
    have hsubids : ∀ k ∈ (kahnResult g).map (fun n => n.id),
        k ∈ g.nodes.map (fun n => n.id) := by
      intro k hk
      obtain ⟨m, hm, hmk⟩ := List.mem_map.mp hk
      exact List.mem_map.mpr ⟨m, hmemres m hm, hmk⟩
    have hlen2 : (g.nodes.map (fun n => n.id)).length
        ≤ ((kahnResult g).map (fun n => n.id)).length := by
      simp only [List.length_map]
      omega
    have hcover := cover_of_nodup_subset (kahnResult_ids_nodup g) hids hsubids hlen2
    rw [List.perm_ext_iff_of_nodup hresnd hnodesnd]
    intro n
    constructor
    · exact hmemres n
    · intro hn
      have : n.id ∈ (kahnResult g).map (fun m => m.id) :=
        hcover n.id (List.mem_map.mpr ⟨n, hn, rfl⟩)
      obtain ⟨m, hm, hmid⟩ := List.mem_map.mp this
      have : m = n := hinj (hmemres m hm) hn hmid
      exact this ▸ hm

/-! ## Claim C2: the Scheduler on cyclic graphs -/

/-- C2 (amended): for every graph with distinct node ids and edge endpoints
among the node ids that contains a directed cycle, `getExecutionOrder`
still returns every node exactly once (a permutation of the node list);
and for every edge (s→t) such that no node on a directed cycle reaches t,
the source node still precedes the target node.  (Dependency order for
*all* edges between non-cyclic nodes fails: a non-cyclic node downstream
of a cycle is emitted by the fallback in node-list order — see the
counterexample.) -/
theorem getExecutionOrder_cycle_spec (g : WorkflowGraph)
    (hids : (g.nodes.map (fun n => n.id)).Nodup)
    (hsrc : ∀ e ∈ g.edges, e.source ∈ g.nodes.map (fun n => n.id))
    (htgt : ∀ e ∈ g.edges, e.target ∈ g.nodes.map (fun n => n.id))
    (hcyc : hasCycle g) :
    (getExecutionOrder g).Perm g.nodes ∧
      ∀ e ∈ g.edges,
        (∀ c, Relation.TransGen (edgeRel g) c c →
          ¬ Relation.ReflTransGen (edgeRel g) c e.target) →
        ∀ ns nt : WorkflowNode, ns ∈ g.nodes → nt ∈ g.nodes →
          ns.id = e.source → nt.id = e.target →
          [ns, nt].Sublist (getExecutionOrder g) := by
  refine ⟨getExecutionOrder_perm g hids, ?_⟩
  intro e he hanc ns nt hns hnt hs ht
  have htP : e.target ∈ kahnP g :=
    kahnP_mem_of_no_cyclic_ancestor hsrc htgt (htgt e he) hanc
  have hpre := kahnResult_precedes hids he htP hns hnt hs ht
  rw [getExecutionOrder_eq]
  by_cases hlt : (kahnResult g).length < g.nodes.length
  · rw [if_pos hlt, fallback_eq g.nodes (kahnResult g) hids]
    exact hpre.trans (List.sublist_append_left _ _)
  · rw [if_neg hlt]
    exact hpre

/-- The concrete cyclic graph: a ⇄ b plus a → c → d, nodes listed in the
order [a, b, d, c]. -/
def cycGraph : WorkflowGraph :=
  { nodes := [wNode "a", wNode "b", wNode "d", wNode "c"],
    edges := [wEdge "e1" "a" "b", wEdge "e2" "b" "a", wEdge "e3" "a" "c",
      wEdge "e4" "c" "d"] }

theorem cycGraph_rel : ∀ a b, edgeRel cycGraph a b →
    (a = "a" ∧ b = "b") ∨ (a = "b" ∧ b = "a") ∨ (a = "a" ∧ b = "c")
      ∨ (a = "c" ∧ b = "d") := by
  rintro a b ⟨e, he, hs, ht⟩
  have he2 : e = wEdge "e1" "a" "b" ∨ e = wEdge "e2" "b" "a"
      ∨ e = wEdge "e3" "a" "c" ∨ e = wEdge "e4" "c" "d" := by
    simpa [cycGraph] using he
  rcases he2 with rfl | rfl | rfl | rfl
  · exact Or.inl ⟨hs.symm, ht.symm⟩
  · exact Or.inr (Or.inl ⟨hs.symm, ht.symm⟩)
  · exact Or.inr (Or.inr (Or.inl ⟨hs.symm, ht.symm⟩))
  · exact Or.inr (Or.inr (Or.inr ⟨hs.symm, ht.symm⟩))

theorem cycGraph_hasCycle : hasCycle cycGraph := by
  have h1 : edgeRel cycGraph "a" "b" :=
    ⟨wEdge "e1" "a" "b", by simp [cycGraph], rfl, rfl⟩
  have h2 : edgeRel cycGraph "b" "a" :=
    ⟨wEdge "e2" "b" "a", by simp [cycGraph], rfl, rfl⟩
  exact ⟨"a", Relation.TransGen.head h1 (Relation.TransGen.single h2)⟩

theorem cycGraph_c_not_cyclic : ¬ Relation.TransGen (edgeRel cycGraph) "c" "c" := by
  intro h
  obtain ⟨b, hb, hbr⟩ := (Relation.TransGen.head'_iff).mp h
  rcases cycGraph_rel _ _ hb with ⟨ha, _⟩ | ⟨ha, _⟩ | ⟨ha, _⟩ | ⟨_, hbd⟩
  · exact absurd ha (by decide)
  · exact absurd ha (by decide)
  · exact absurd ha (by decide)
  · subst hbd
    rcases Relation.ReflTransGen.cases_head hbr with heq | ⟨c', hc', _⟩
    · exact absurd heq (by decide)
    · rcases cycGraph_rel _ _ hc' with ⟨ha, _⟩ | ⟨ha, _⟩ | ⟨ha, _⟩ | ⟨ha, _⟩ <;>
        exact absurd ha (by decide)

theorem cycGraph_d_not_cyclic : ¬ Relation.TransGen (edgeRel cycGraph) "d" "d" := by
  intro h
  obtain ⟨b, hb, _⟩ := (Relation.TransGen.head'_iff).mp h
  rcases cycGraph_rel _ _ hb with ⟨ha, _⟩ | ⟨ha, _⟩ | ⟨ha, _⟩ | ⟨ha, _⟩ <;>
    exact absurd ha (by decide)

/-- Counterexample to C2 as stated: `cycGraph` contains a directed cycle,
the edge c → d joins two nodes that lie on no directed cycle, and yet the
target node d precedes the source node c in the returned order (both were
emitted by the fallback in node-list order). -/
theorem getExecutionOrder_cycle_order_counterexample :
    hasCycle cycGraph ∧
      ∃ e ∈ cycGraph.edges,
        (¬ Relation.TransGen (edgeRel cycGraph) e.source e.source) ∧
        (¬ Relation.TransGen (edgeRel cycGraph) e.target e.target) ∧
        ∀ ns ∈ cycGraph.nodes, ∀ nt ∈ cycGraph.nodes,
          ns.id = e.source → nt.id = e.target →
          ¬ [ns, nt].Sublist (getExecutionOrder cycGraph) := by
  refine ⟨cycGraph_hasCycle, wEdge "e4" "c" "d", by simp [cycGraph], ?_, ?_, ?_⟩
  · exact cycGraph_c_not_cyclic
  · exact cycGraph_d_not_cyclic
  · decide

/-- The concrete cyclic graph used as witness: c → d plus a ⇄ b. -/
def cycWGraph : WorkflowGraph :=
  { nodes := [wNode "c", wNode "d", wNode "a", wNode "b"],
    edges := [wEdge "e1" "c" "d", wEdge "e2" "a" "b", wEdge "e3" "b" "a"] }

theorem cycWGraph_hasCycle : hasCycle cycWGraph := by
  have h1 : edgeRel cycWGraph "a" "b" :=
    ⟨wEdge "e2" "a" "b", by simp [cycWGraph], rfl, rfl⟩
  have h2 : edgeRel cycWGraph "b" "a" :=
    ⟨wEdge "e3" "b" "a", by simp [cycWGraph], rfl, rfl⟩
  exact ⟨"a", Relation.TransGen.head h1 (Relation.TransGen.single h2)⟩

/-- Witness for the amended C2 at the concrete graph `cycWGraph`. -/
theorem getExecutionOrder_cycle_spec_witness :
    (getExecutionOrder cycWGraph).Perm cycWGraph.nodes ∧
      ∀ e ∈ cycWGraph.edges,
        (∀ c, Relation.TransGen (edgeRel cycWGraph) c c →
          ¬ Relation.ReflTransGen (edgeRel cycWGraph) c e.target) →
        ∀ ns nt : WorkflowNode, ns ∈ cycWGraph.nodes → nt ∈ cycWGraph.nodes →
          ns.id = e.source → nt.id = e.target →
          [ns, nt].Sublist (getExecutionOrder cycWGraph) :=
  getExecutionOrder_cycle_spec cycWGraph (by decide) (by decide) (by decide)
    cycWGraph_hasCycle


/-! ## Claim C3: node deletion with bridge edges -/

theorem length_flatMap_const {α β : Type} (l : List α) (f : α → List β)
    (c : Nat) (h : ∀ a ∈ l, (f a).length = c) :
    (l.flatMap f).length = l.length * c := by
  induction l with
  | nil => simp
  | cons a l ih =>
    rw [List.flatMap_cons, List.length_append, h a (List.mem_cons_self _ _),
      ih (fun x hx => h x (List.mem_cons_of_mem _ hx)), List.length_cons]
    ring

/-- C3 (amended): deleting a present node that carries no self-loop removes
it, rebuilds the edge list as the surviving edges plus exactly I×O bridge
edges — one per (incoming edge, outgoing edge) pair, labeled with the
outgoing edge's label when truthy, else the incoming edge's, else
`"follow"` — and leaves no edge referencing the deleted id. -/
theorem deleteNode_bridges_spec (g : WorkflowGraph) (nodeId : String) (now : Nat)
    (hmem : nodeId ∈ g.nodes.map (fun n => n.id))
    (hnoself : ∀ e ∈ g.edges, ¬ (e.source = nodeId ∧ e.target = nodeId)) :
    (deleteNode g nodeId now).nodes = g.nodes.filter (fun n => n.id ≠ nodeId) ∧
    (deleteNode g nodeId now).edges.length
      = (g.edges.filter (fun e => e.source ≠ nodeId ∧ e.target ≠ nodeId)).length
        + (g.edges.filter (fun e => e.target = nodeId)).length
          * (g.edges.filter (fun e => e.source = nodeId)).length ∧
    (∀ ie ∈ g.edges.filter (fun e => e.target = nodeId),
      ∀ oe ∈ g.edges.filter (fun e => e.source = nodeId),
      ∃ b ∈ (deleteNode g nodeId now).edges,
        b.source = ie.source ∧ b.target = oe.target ∧
        b.label = jsOrLabel oe.label (jsOrLabel ie.label (some "follow"))) ∧
    (∀ e ∈ (deleteNode g nodeId now).edges,
      e.source ≠ nodeId ∧ e.target ≠ nodeId) := by
  have hany : g.nodes.any (fun n => n.id = nodeId) = true := by
    obtain ⟨n, hn, hid⟩ := List.mem_map.mp hmem
    exact List.any_eq_true.mpr ⟨n, hn, by simp [hid]⟩
  have hd : deleteNode g nodeId now =
      { g with
        nodes := g.nodes.filter (fun n => n.id ≠ nodeId),
        edges := g.edges.filter (fun e => e.source ≠ nodeId ∧ e.target ≠ nodeId)
          ++ (g.edges.filter (fun e => e.target = nodeId)).flatMap (fun inEdge =>
            (g.edges.filter (fun e => e.source = nodeId)).map (fun outEdge =>
              { id := "edge-bridge-" ++ inEdge.source ++ "-" ++ outEdge.target
                  ++ "-" ++ toString now,
                source := inEdge.source,
                target := outEdge.target,
                label := jsOrLabel outEdge.label
                  (jsOrLabel inEdge.label (some "follow")) })) } := by
    rw [deleteNode, if_neg (fun hc => hc hany)]
  refine ⟨by rw [hd], ?_, ?_, ?_⟩
  · rw [hd]
    simp only [List.length_append]
    congr 1
    exact length_flatMap_const _ _ _ (fun a _ => List.length_map _ _)
  · intro ie hie oe hoe
    have hb : ({ id := "edge-bridge-" ++ ie.source ++ "-" ++ oe.target ++ "-" ++ toString now, source := ie.source, target := oe.target, label := jsOrLabel oe.label (jsOrLabel ie.label (some "follow")) } : WorkflowEdge) ∈ (deleteNode g nodeId now).edges := by
      rw [hd]
      refine List.mem_append_right _ ?_
      exact List.mem_flatMap.mpr ⟨ie, hie, List.mem_map.mpr ⟨oe, hoe, rfl⟩⟩
    exact ⟨_, hb, rfl, rfl, rfl⟩
  · intro e he
    rw [hd] at he
    rcases List.mem_append.mp he with he | he
    · have := (List.mem_filter.mp he).2
      simpa using this
    · obtain ⟨ie, hie, hmap⟩ := List.mem_flatMap.mp he
      obtain ⟨oe, hoe, hoeq⟩ := List.mem_map.mp hmap
      have hie2 := List.mem_filter.mp hie
      have hoe2 := List.mem_filter.mp hoe
      have hiet : ie.target = nodeId := by simpa using hie2.2
      have hoes : oe.source = nodeId := by simpa using hoe2.2
      have h1 : ie.source ≠ nodeId := by
        intro hh
        exact hnoself ie hie2.1 ⟨hh, hiet⟩
      have h2 : oe.target ≠ nodeId := by
        intro hh
        exact hnoself oe hoe2.1 ⟨hoes, hh⟩
      rw [← hoeq]
      exact ⟨h1, h2⟩

/-- The self-loop graph refuting C3 as stated. -/
def selfLoopGraph : WorkflowGraph :=
  { nodes := [wNode "a", wNode "b"], edges := [wEdge "e1" "a" "a"] }

/-- Counterexample to C3 as stated: deleting node a, which carries a
self-loop a → a, synthesizes the bridge a → a, so the resulting graph has
an edge whose source and target are the deleted node's id. -/
theorem deleteNode_self_loop_counterexample :
    (deleteNode selfLoopGraph "a" 0).edges.length = 1 ∧
    ¬ (∀ e ∈ (deleteNode selfLoopGraph "a" 0).edges,
        e.source ≠ "a" ∧ e.target ≠ "a") := by
  decide

/-- A three-node chain for the C3 witness. -/
def delGraph : WorkflowGraph :=
  { nodes := [wNode "p", wNode "q", wNode "r"],
    edges := [{ id := "e1", source := "p", target := "q", label := some "next" },
      wEdge "e2" "q" "r"] }

/-- Witness for the amended C3 at the concrete chain p → q → r. -/
theorem deleteNode_bridges_spec_witness :
    (deleteNode delGraph "q" 7).nodes
      = delGraph.nodes.filter (fun n => n.id ≠ "q") ∧
    (deleteNode delGraph "q" 7).edges.length
      = (delGraph.edges.filter
          (fun e => e.source ≠ "q" ∧ e.target ≠ "q")).length
        + (delGraph.edges.filter (fun e => e.target = "q")).length
          * (delGraph.edges.filter (fun e => e.source = "q")).length ∧
    (∀ ie ∈ delGraph.edges.filter (fun e => e.target = "q"),
      ∀ oe ∈ delGraph.edges.filter (fun e => e.source = "q"),
      ∃ b ∈ (deleteNode delGraph "q" 7).edges,
        b.source = ie.source ∧ b.target = oe.target ∧
        b.label = jsOrLabel oe.label (jsOrLabel ie.label (some "follow"))) ∧
    (∀ e ∈ (deleteNode delGraph "q" 7).edges,
      e.source ≠ "q" ∧ e.target ≠ "q") :=
  deleteNode_bridges_spec delGraph "q" 7 (by decide) (by decide)

/-! ## Claim C5: the execution context chain -/

theorem updateContext_foldl (steps : List (WorkflowNode × String)) :
    ∀ (c : ExecutionContext),
      (steps.foldl (fun c p => updateContext c p.1 p.2) c).executedNodes
        = c.executedNodes ++ steps.map (fun p => ⟨p.1.id, p.1.title, p.2⟩) ∧
      (steps.foldl (fun c p => updateContext c p.1 p.2) c).currentInput
        = ((steps.map (fun p => p.2)).getLast?.getD c.currentInput) ∧
      (steps.foldl (fun c p => updateContext c p.1 p.2) c).originalIdea
        = c.originalIdea := by
  induction steps with
  | nil =>
    intro c
    simp
  | cons p ps ih =>
    intro c
    rw [List.foldl_cons, List.map_cons, List.map_cons]
    obtain ⟨h1, h2, h3⟩ := ih (updateContext c p.1 p.2)
    refine ⟨?_, ?_, ?_⟩
    · rw [h1]
      simp [updateContext]
    · rw [h2]
      rcases ps with _ | ⟨q, qs⟩
      · simp [updateContext]
      · simp only [List.map_cons, List.getLast?_cons_cons]
        have hne : (q.2 :: List.map (fun (p : WorkflowNode × String) => p.2) qs)
            ≠ [] := by
          simp
        rw [List.getLast?_eq_getLast_of_ne_nil hne]
        simp
    · rw [h3]
      rfl

/-- C5: starting from `createInitialContext idea`, after any sequence of
successful node executions folded through `updateContext`, the context's
`executedNodes` lists exactly the executed (node, output) pairs in dispatch
order, `currentInput` is the last output (the original idea when there is
none), `originalIdea` is unchanged — and `updateContext` always returns a
context different from its input (the embedding is pure, so the input value
itself is never modified). -/
theorem updateContext_chain_spec (idea : String)
    (steps : List (WorkflowNode × String)) :
    (steps.foldl (fun c p => updateContext c p.1 p.2)
        (createInitialContext idea)).executedNodes
      = steps.map (fun p => ⟨p.1.id, p.1.title, p.2⟩) ∧
    (steps.foldl (fun c p => updateContext c p.1 p.2)
        (createInitialContext idea)).currentInput
      = ((steps.map (fun p => p.2)).getLast?.getD idea) ∧
    (steps.foldl (fun c p => updateContext c p.1 p.2)
        (createInitialContext idea)).originalIdea = idea ∧
    ∀ (c : ExecutionContext) (n : WorkflowNode) (o : String),
      updateContext c n o ≠ c := by
  obtain ⟨h1, h2, h3⟩ := updateContext_foldl steps (createInitialContext idea)
  refine ⟨by simpa [createInitialContext] using h1,
    by simpa [createInitialContext] using h2,
    by simpa [createInitialContext] using h3, ?_⟩
  intro c n o h
  have := congrArg (fun c => c.executedNodes.length) h
  simp [updateContext] at this

/-! ## Claim C7: the Validator on dangling edges -/

theorem applyDanglingWarning_nodes (g : WorkflowGraph) :
    (applyDanglingWarning g).nodes = g.nodes := by
  unfold applyDanglingWarning
  split <;> rfl

theorem applyDanglingWarning_edges (g : WorkflowGraph) :
    (applyDanglingWarning g).edges = g.edges := by
  unfold applyDanglingWarning
  split <;> rfl

theorem applyOrphanWarning_nodes (g : WorkflowGraph) :
    (applyOrphanWarning g).nodes = g.nodes := by
  unfold applyOrphanWarning
  split <;> rfl

theorem applyOrphanWarning_edges (g : WorkflowGraph) :
    (applyOrphanWarning g).edges = g.edges := by
  unfold applyOrphanWarning
  split <;> rfl

theorem applyOrphanWarning_warnings (g : WorkflowGraph) :
    ∃ ws, (applyOrphanWarning g).warnings = g.warnings ++ ws := by
  unfold applyOrphanWarning
  split
  · exact ⟨_, rfl⟩
  · exact ⟨[], by simp⟩

/-- C7: whenever some edge's source or target id is absent from the node
set, the validation block of the parse route appends at least one warning
string to the graph's warning list, and it neither removes nor repairs any
node or edge (both sequences are returned unchanged). -/
theorem validateParsedGraph_dangling_warns (g : WorkflowGraph)
    (hdang : ∃ e ∈ g.edges, e.source ∉ g.nodes.map (fun n => n.id)
      ∨ e.target ∉ g.nodes.map (fun n => n.id)) :
    (validateParsedGraph g).nodes = g.nodes ∧
    (validateParsedGraph g).edges = g.edges ∧
    ∃ ws, ws ≠ [] ∧ (validateParsedGraph g).warnings = g.warnings ++ ws := by
  obtain ⟨e, he, hor⟩ := hdang
  have hc1 : 0 < danglingCount g := by
    unfold danglingCount
    have hmem2 : e ∈ g.edges.filter
        (fun e => ¬ (g.nodes.map (fun n => n.id)).contains e.source
          ∨ ¬ (g.nodes.map (fun n => n.id)).contains e.target) := by
      rw [List.mem_filter]
      refine ⟨he, ?_⟩
      rcases hor with h | h
      · simp [h]
      · simp [h]
    exact List.length_pos_of_mem hmem2
  have hdw : (applyDanglingWarning g).warnings
      = g.warnings ++ [toString (danglingCount g)
        ++ " edge(s) reference missing nodes"] := by
    unfold applyDanglingWarning
    rw [if_pos hc1]
  obtain ⟨ws₂, hws₂⟩ := applyOrphanWarning_warnings (applyDanglingWarning g)
  refine ⟨?_, ?_, ?_⟩
  · rw [show validateParsedGraph g = applyOrphanWarning (applyDanglingWarning g)
      from rfl, applyOrphanWarning_nodes, applyDanglingWarning_nodes]
  · rw [show validateParsedGraph g = applyOrphanWarning (applyDanglingWarning g)
      from rfl, applyOrphanWarning_edges, applyDanglingWarning_edges]
  · refine ⟨[toString (danglingCount g) ++ " edge(s) reference missing nodes"]
      ++ ws₂, by simp, ?_⟩
    rw [show validateParsedGraph g = applyOrphanWarning (applyDanglingWarning g)
      from rfl, hws₂, hdw]
    simp

/-- The dangling-edge graph for the C7 witness (edge source w is not a
node). -/
def dangGraph : WorkflowGraph :=
  { nodes := [wNode "u", wNode "v"], edges := [wEdge "e1" "w" "v"] }

/-- Witness for C7 at a concrete graph with an edge from a missing id. -/
theorem validateParsedGraph_dangling_warns_witness :
    (validateParsedGraph dangGraph).nodes = dangGraph.nodes ∧
    (validateParsedGraph dangGraph).edges = dangGraph.edges ∧
    ∃ ws, ws ≠ [] ∧
      (validateParsedGraph dangGraph).warnings = dangGraph.warnings ++ ws :=
  validateParsedGraph_dangling_warns dangGraph (by decide)

/-! ## Claim C9: idempotent manual edge creation -/

/-- C9: `handleEdgeCreate` is a no-op when the (source, target) pair exists,
appends exactly one unlabeled edge with the generated id otherwise, and
therefore never introduces a duplicate (source, target) pair. -/
theorem handleEdgeCreate_idempotent_spec (g : WorkflowGraph) (s t : String) :
    ((∃ e ∈ g.edges, e.source = s ∧ e.target = t) → handleEdgeCreate g s t = g) ∧
    (¬ (∃ e ∈ g.edges, e.source = s ∧ e.target = t) →
      (handleEdgeCreate g s t).edges
        = g.edges ++ [{ id := "edge-" ++ s ++ "-" ++ t, source := s, target := t, label := none }]) ∧
    ((g.edges.map (fun e => (e.source, e.target))).Nodup →
      ((handleEdgeCreate g s t).edges.map (fun e => (e.source, e.target))).Nodup) := by
  refine ⟨?_, ?_, ?_⟩
  · intro hex
    rw [handleEdgeCreate, if_pos]
    obtain ⟨e, he, hst⟩ := hex
    exact List.any_eq_true.mpr ⟨e, he, by simp [hst.1, hst.2]⟩
  · intro hnex
    rw [handleEdgeCreate, if_neg]
    intro hany
    obtain ⟨e, he, hst⟩ := List.any_eq_true.mp hany
    simp only [decide_eq_true_eq] at hst
    exact hnex ⟨e, he, hst⟩
  · intro hnd
    rw [handleEdgeCreate]
    by_cases hany : g.edges.any (fun e => e.source = s ∧ e.target = t) = true
    · rw [if_pos hany]
      exact hnd
    · rw [if_neg hany]
      simp only [List.map_append, List.map_cons, List.map_nil]
      rw [List.nodup_append]
      refine ⟨hnd, List.nodup_singleton _, ?_⟩
      intro p hp hp2
      simp only [List.mem_singleton] at hp2
      obtain ⟨e, he, hpe⟩ := List.mem_map.mp hp
      apply hany
      refine List.any_eq_true.mpr ⟨e, he, ?_⟩
      rw [hp2] at hpe
      have h1 : e.source = s := congrArg Prod.fst hpe
      have h2 : e.target = t := congrArg Prod.snd hpe
      simp [h1, h2]

/-- A two-node graph with one edge for the C9 witness. -/
def edgeGraph : WorkflowGraph :=
  { nodes := [wNode "u", wNode "v"], edges := [wEdge "e1" "u" "v"] }

/-- Witness for C9: re-connecting u → v is a no-op, connecting v → u appends
one unlabeled edge, and the duplicate-free pair invariant is preserved. -/
theorem handleEdgeCreate_idempotent_spec_witness :
    handleEdgeCreate edgeGraph "u" "v" = edgeGraph ∧
    (handleEdgeCreate edgeGraph "v" "u").edges
      = edgeGraph.edges ++ [{ id := "edge-" ++ "v" ++ "-" ++ "u", source := "v", target := "u", label := none }] ∧
    ((handleEdgeCreate edgeGraph "u" "v").edges.map
      (fun e => (e.source, e.target))).Nodup :=
  ⟨(handleEdgeCreate_idempotent_spec edgeGraph "u" "v").1 (by decide),
    (handleEdgeCreate_idempotent_spec edgeGraph "v" "u").2.1 (by decide),
    (handleEdgeCreate_idempotent_spec edgeGraph "u" "v").2.2 (by decide)⟩


/-! ## Executor Orchestrator lemmas -/

theorem flowStep_eq (exec : WorkflowNode → ExecutionContext → StepResult)
    (nodes : List WorkflowNode) (ctx : ExecutionContext) (node : WorkflowNode) :
    flowStep exec nodes ctx node
      = if stepOk (exec node ctx) = true then
          (markDone (markRunning nodes node.id) node.id (stepOutput (exec node ctx)),
            updateContext ctx node (stepOutput (exec node ctx)))
        else (markBlocked (markRunning nodes node.id) node.id
            (caughtMessage (exec node ctx)), ctx) := rfl

theorem runFlowLoop_nil (exec : WorkflowNode → ExecutionContext → StepResult)
    (abortAt : Nat → Bool) (i : Nat) (nodes : List WorkflowNode)
    (ctx : ExecutionContext) :
    runFlowLoop exec abortAt [] i nodes ctx = (nodes, ctx, []) := rfl

theorem runFlowLoop_cons (exec : WorkflowNode → ExecutionContext → StepResult)
    (abortAt : Nat → Bool) (node : WorkflowNode) (rest : List WorkflowNode)
    (i : Nat) (nodes : List WorkflowNode) (ctx : ExecutionContext) :
    runFlowLoop exec abortAt (node :: rest) i nodes ctx
      = if abortAt i = true then (nodes, ctx, [])
        else
          ((runFlowLoop exec abortAt rest (i + 1) (flowStep exec nodes ctx node).1
              (flowStep exec nodes ctx node).2).1,
            (runFlowLoop exec abortAt rest (i + 1) (flowStep exec nodes ctx node).1
              (flowStep exec nodes ctx node).2).2.1,
            node.id :: (runFlowLoop exec abortAt rest (i + 1)
              (flowStep exec nodes ctx node).1
              (flowStep exec nodes ctx node).2).2.2) := rfl

theorem caughtMessage_resp_ne_empty (s : Bool) (o e : Option String) :
    caughtMessage (StepResult.resp s o e) ≠ "" := by
  rw [show caughtMessage (StepResult.resp s o e)
      = if truthy e = true then e.getD "" else "Execution failed" from rfl]
  by_cases htr : truthy e = true
  · rw [if_pos htr]
    cases e with
    | none => simp [truthy] at htr
    | some x =>
      have hx : x ≠ "" := by simpa [truthy] using htr
      simpa using hx
  · rw [if_neg htr]
    decide

theorem mem_markBlocked_self {nodes : List WorkflowNode} {nid : String}
    {msg : String} {n : WorkflowNode} (hn : n ∈ markBlocked nodes nid msg)
    (hid : n.id = nid) :
    n.status = .blocked ∧ n.error = some msg := by
  rcases List.mem_map.mp hn with ⟨m, _, hfm⟩
  by_cases hmid : m.id = nid
  · rw [if_pos hmid] at hfm
    rw [← hfm]
    exact ⟨rfl, rfl⟩
  · rw [if_neg hmid] at hfm
    exfalso
    apply hmid
    rw [hfm]
    exact hid

/-! ## Claim C10: success with empty output is a failure -/

/-- C10 (implicit): a Step Executor response reporting success but carrying
no usable output (absent or empty string) is handled exactly like a
failure: the node is marked blocked with the non-empty message
`result.error || "Execution failed"`, and the execution context is returned
unchanged — nothing is appended to `executedNodes` and `currentInput` is
untouched. -/
theorem flowStep_empty_output_blocked
    (exec : WorkflowNode → ExecutionContext → StepResult)
    (nodes : List WorkflowNode) (ctx : ExecutionContext) (node : WorkflowNode)
    (o e : Option String) (hr : exec node ctx = .resp true o e)
    (ho : truthy o = false) :
    flowStep exec nodes ctx node
      = (markBlocked (markRunning nodes node.id) node.id
          (caughtMessage (StepResult.resp true o e)), ctx) ∧
    caughtMessage (StepResult.resp true o e) ≠ "" ∧
    ∀ n ∈ markBlocked (markRunning nodes node.id) node.id
        (caughtMessage (StepResult.resp true o e)),
      n.id = node.id → n.status = .blocked ∧
        n.error = some (caughtMessage (StepResult.resp true o e)) := by
  refine ⟨?_, caughtMessage_resp_ne_empty true o e, ?_⟩
  · rw [flowStep_eq, hr, if_neg (by simp [stepOk, ho])]
  · intro n hn hid
    exact mem_markBlocked_self hn hid

/-- The concrete executor answering success with an empty output. -/
def emptyOutExec : WorkflowNode → ExecutionContext → StepResult :=
  fun _ _ => .resp true (some "") none

/-- Witness for C10 at a concrete node and context. -/
theorem flowStep_empty_output_blocked_witness :
    flowStep emptyOutExec [wNode "a"] (createInitialContext "i") (wNode "a")
      = (markBlocked (markRunning [wNode "a"] (wNode "a").id) (wNode "a").id
          (caughtMessage (StepResult.resp true (some "") none)),
        createInitialContext "i") ∧
    caughtMessage (StepResult.resp true (some "") none) ≠ "" ∧
    ∀ n ∈ markBlocked (markRunning [wNode "a"] (wNode "a").id) (wNode "a").id
        (caughtMessage (StepResult.resp true (some "") none)),
      n.id = (wNode "a").id → n.status = .blocked ∧
        n.error = some (caughtMessage (StepResult.resp true (some "") none)) :=
  flowStep_empty_output_blocked emptyOutExec [wNode "a"]
    (createInitialContext "i") (wNode "a") (some "") none rfl rfl

/-! ## Claim C4: failing Step Executor calls -/

/-- The failure condition of claim C4: the call returns `success = false`
or throws. -/
def failsCall : StepResult → Bool
  | .resp success _ _ => !success
  | .thrownError _ => true
  | .thrownOther => true

/-- C4 (amended): when a node's Step Executor call fails (returns
`success = false` or throws) and the cancellation flag is clear, the run
marks exactly that node blocked with the reported failure message, leaves
the execution context unchanged, and continues with the remaining scheduled
nodes (the node's id is recorded as dispatched and the loop recurses on the
rest).  The error text is non-empty whenever the call returned a response
or threw a non-`Error` value; a thrown `Error` contributes its own message
verbatim, which may be empty — see the counterexample. -/
theorem runFlowLoop_failure_continues
    (exec : WorkflowNode → ExecutionContext → StepResult) (abortAt : Nat → Bool)
    (node : WorkflowNode) (rest : List WorkflowNode) (i : Nat)
    (nodes : List WorkflowNode) (ctx : ExecutionContext)
    (hab : abortAt i = false) (hfail : failsCall (exec node ctx) = true) :
    (runFlowLoop exec abortAt (node :: rest) i nodes ctx).1
      = (runFlowLoop exec abortAt rest (i + 1)
          (markBlocked (markRunning nodes node.id) node.id
            (caughtMessage (exec node ctx))) ctx).1 ∧
    (runFlowLoop exec abortAt (node :: rest) i nodes ctx).2.1
      = (runFlowLoop exec abortAt rest (i + 1)
          (markBlocked (markRunning nodes node.id) node.id
            (caughtMessage (exec node ctx))) ctx).2.1 ∧
    (runFlowLoop exec abortAt (node :: rest) i nodes ctx).2.2
      = node.id :: (runFlowLoop exec abortAt rest (i + 1)
          (markBlocked (markRunning nodes node.id) node.id
            (caughtMessage (exec node ctx))) ctx).2.2 ∧
    (∀ n ∈ markBlocked (markRunning nodes node.id) node.id
        (caughtMessage (exec node ctx)),
      n.id = node.id → n.status = .blocked ∧
        n.error = some (caughtMessage (exec node ctx))) ∧
    (∀ s o err, exec node ctx = .resp s o err →
      caughtMessage (exec node ctx) ≠ "") ∧
    (exec node ctx = .thrownOther → caughtMessage (exec node ctx) ≠ "") := by
  have hok : stepOk (exec node ctx) = false := by
    cases hxc : exec node ctx with
    | resp s o e =>
      rw [hxc] at hfail
      have hs : s = false := by simpa [failsCall] using hfail
      simp [stepOk, hs]
    | thrownError m => simp [stepOk]
    | thrownOther => simp [stepOk]
  rw [runFlowLoop_cons, if_neg (by simp [hab]), flowStep_eq,
    if_neg (by simp [hok])]
  refine ⟨rfl, rfl, rfl, ?_, ?_, ?_⟩
  · intro n hn hid
    exact mem_markBlocked_self hn hid
  · intro s o err hre
    rw [hre]
    exact caughtMessage_resp_ne_empty s o err
  · intro hre
    rw [hre]
    decide

/-- The executor that throws an `Error` whose message is empty. -/
def throwEmptyExec : WorkflowNode → ExecutionContext → StepResult :=
  fun _ _ => .thrownError ""

/-- A one-node graph. -/
def oneNodeGraph : WorkflowGraph := { nodes := [wNode "a"], edges := [] }

/-- Counterexample to C4 as stated: when the Step Executor call rejects
with an `Error` whose message is empty, the node ends blocked with the
empty error text `""` — so the blocked error text is not always
non-empty. -/
theorem executeFlow_blocked_error_counterexample :
    ¬ (∀ n ∈ (executeFlow throwEmptyExec (fun _ => false) oneNodeGraph "idea").1,
        n.status = .blocked → n.error ≠ none ∧ n.error ≠ some "") := by
  decide

/-- The executor answering a plain failure response. -/
def failRespExec : WorkflowNode → ExecutionContext → StepResult :=
  fun _ _ => .resp false none (some "boom")

/-- Witness for the amended C4 at a concrete failing response. -/
theorem runFlowLoop_failure_continues_witness :
    (runFlowLoop failRespExec (fun _ => false) ((wNode "a") :: [wNode "b"]) 0
        [wNode "a", wNode "b"] (createInitialContext "i")).1
      = (runFlowLoop failRespExec (fun _ => false) [wNode "b"] 1
          (markBlocked (markRunning [wNode "a", wNode "b"] (wNode "a").id)
            (wNode "a").id
            (caughtMessage (failRespExec (wNode "a") (createInitialContext "i"))))
          (createInitialContext "i")).1 ∧
    (runFlowLoop failRespExec (fun _ => false) ((wNode "a") :: [wNode "b"]) 0
        [wNode "a", wNode "b"] (createInitialContext "i")).2.1
      = (runFlowLoop failRespExec (fun _ => false) [wNode "b"] 1
          (markBlocked (markRunning [wNode "a", wNode "b"] (wNode "a").id)
            (wNode "a").id
            (caughtMessage (failRespExec (wNode "a") (createInitialContext "i"))))
          (createInitialContext "i")).2.1 ∧
    (runFlowLoop failRespExec (fun _ => false) ((wNode "a") :: [wNode "b"]) 0
        [wNode "a", wNode "b"] (createInitialContext "i")).2.2
      = (wNode "a").id :: (runFlowLoop failRespExec (fun _ => false) [wNode "b"] 1
          (markBlocked (markRunning [wNode "a", wNode "b"] (wNode "a").id)
            (wNode "a").id
            (caughtMessage (failRespExec (wNode "a") (createInitialContext "i"))))
          (createInitialContext "i")).2.2 ∧
    (∀ n ∈ markBlocked (markRunning [wNode "a", wNode "b"] (wNode "a").id)
        (wNode "a").id
        (caughtMessage (failRespExec (wNode "a") (createInitialContext "i"))),
      n.id = (wNode "a").id → n.status = .blocked ∧
        n.error = some (caughtMessage (failRespExec (wNode "a")
          (createInitialContext "i")))) ∧
    (∀ s o err, failRespExec (wNode "a") (createInitialContext "i")
        = .resp s o err →
      caughtMessage (failRespExec (wNode "a") (createInitialContext "i")) ≠ "") ∧
    (failRespExec (wNode "a") (createInitialContext "i") = .thrownOther →
      caughtMessage (failRespExec (wNode "a") (createInitialContext "i")) ≠ "") :=
  runFlowLoop_failure_continues failRespExec (fun _ => false) (wNode "a")
    [wNode "b"] 0 [wNode "a", wNode "b"] (createInitialContext "i") rfl rfl

/-! ## Claim C8: cooperative cancellation -/

theorem mem_ite_map_of_ne {nodes : List WorkflowNode} {nid : String}
    {upd : WorkflowNode → WorkflowNode} (hupd : ∀ m, (upd m).id = m.id)
    {n : WorkflowNode}
    (hn : n ∈ nodes.map (fun m => if m.id = nid then upd m else m))
    (hne : n.id ≠ nid) : n ∈ nodes := by
  rcases List.mem_map.mp hn with ⟨m, hm, hfm⟩
  by_cases hmid : m.id = nid
  · rw [if_pos hmid] at hfm
    exfalso
    apply hne
    rw [← hfm, hupd m, hmid]
  · rw [if_neg hmid] at hfm
    rw [← hfm]
    exact hm

theorem mem_markRunning_of_ne {nodes : List WorkflowNode} {nid : String}
    {n : WorkflowNode} (hn : n ∈ markRunning nodes nid) (hne : n.id ≠ nid) :
    n ∈ nodes :=
  @mem_ite_map_of_ne nodes nid
    (fun m => { m with status := NodeStatus.running }) (fun _ => rfl) n hn hne

theorem mem_markDone_of_ne {nodes : List WorkflowNode} {nid : String}
    {out : String} {n : WorkflowNode} (hn : n ∈ markDone nodes nid out)
    (hne : n.id ≠ nid) : n ∈ nodes :=
  @mem_ite_map_of_ne nodes nid
    (fun m => { m with status := NodeStatus.done, output := some out })
    (fun _ => rfl) n hn hne

theorem mem_markBlocked_of_ne {nodes : List WorkflowNode} {nid : String}
    {msg : String} {n : WorkflowNode} (hn : n ∈ markBlocked nodes nid msg)
    (hne : n.id ≠ nid) : n ∈ nodes :=
  @mem_ite_map_of_ne nodes nid
    (fun m => { m with status := NodeStatus.blocked, error := some msg })
    (fun _ => rfl) n hn hne

theorem mem_flowStep_nodes {exec : WorkflowNode → ExecutionContext → StepResult}
    {nodes : List WorkflowNode} {ctx : ExecutionContext} {node : WorkflowNode}
    {n : WorkflowNode} (hn : n ∈ (flowStep exec nodes ctx node).1)
    (hne : n.id ≠ node.id) : n ∈ nodes := by
  rw [flowStep_eq] at hn
  by_cases hok : stepOk (exec node ctx) = true
  · rw [if_pos hok] at hn
    have hn2 : n ∈ markDone (markRunning nodes node.id) node.id
        (stepOutput (exec node ctx)) := hn
    exact mem_markRunning_of_ne (mem_markDone_of_ne hn2 hne) hne
  · rw [if_neg hok] at hn
    have hn2 : n ∈ markBlocked (markRunning nodes node.id) node.id
        (caughtMessage (exec node ctx)) := hn
    exact mem_markRunning_of_ne (mem_markBlocked_of_ne hn2 hne) hne

theorem runFlowLoop_untouched
    (exec : WorkflowNode → ExecutionContext → StepResult) (abortAt : Nat → Bool) :
    ∀ (pending : List WorkflowNode) (i : Nat) (nodes : List WorkflowNode)
      (ctx : ExecutionContext) (n : WorkflowNode),
      n ∈ (runFlowLoop exec abortAt pending i nodes ctx).1 →
      n.id ∉ (runFlowLoop exec abortAt pending i nodes ctx).2.2 →
      n ∈ nodes := by
  intro pending
  induction pending with
  | nil =>
    intro i nodes ctx n hn _
    rw [runFlowLoop_nil] at hn
    exact hn
  | cons node rest ih =>
    intro i nodes ctx n hn hnd
    rw [runFlowLoop_cons] at hn hnd
    by_cases hab : abortAt i = true
    · rw [if_pos hab] at hn
      exact hn
    · rw [if_neg hab] at hn hnd
      have hnd1 : n.id ≠ node.id := by
        intro hh
        exact hnd (by rw [hh]; exact List.mem_cons_self _ _)
      have hnd2 : n.id ∉ (runFlowLoop exec abortAt rest (i + 1)
          (flowStep exec nodes ctx node).1 (flowStep exec nodes ctx node).2).2.2 :=
        fun hh => hnd (List.mem_cons_of_mem _ hh)
      have hmem := ih (i + 1) (flowStep exec nodes ctx node).1
        (flowStep exec nodes ctx node).2 n hn hnd2
      exact mem_flowStep_nodes hmem hnd1

theorem runFlowLoop_dispatched
    (exec : WorkflowNode → ExecutionContext → StepResult) (abortAt : Nat → Bool) :
    ∀ (pending : List WorkflowNode) (k i : Nat) (nodes : List WorkflowNode)
      (ctx : ExecutionContext),
      (∀ j, j < k → abortAt (i + j) = false) →
      (abortAt (i + k) = true ∨ pending.length ≤ k) →
      (runFlowLoop exec abortAt pending i nodes ctx).2.2
        = (pending.take k).map (fun n => n.id) := by
  intro pending
  induction pending with
  | nil =>
    intro k i nodes ctx _ _
    rw [runFlowLoop_nil]
    simp
  | cons node rest ih =>
    intro k i nodes ctx hlt hend
    rw [runFlowLoop_cons]
    cases k with
    | zero =>
      have hab : abortAt i = true := by
        rcases hend with h | h
        · simpa using h
        · simp at h
      rw [if_pos hab]
      simp
    | succ k =>
      have hab : abortAt i = false := by
        have := hlt 0 (Nat.succ_pos k)
        simpa using this
      rw [if_neg (by simp [hab])]
      have h1 : ∀ j, j < k → abortAt (i + 1 + j) = false := by
        intro j hj
        have := hlt (j + 1) (by omega)
        rw [show i + 1 + j = i + (j + 1) by omega]
        exact this
      have h2 : abortAt (i + 1 + k) = true ∨ rest.length ≤ k := by
        rcases hend with h | h
        · left
          rw [show i + 1 + k = i + (k + 1) by omega]
          exact h
        · right
          simp at h
          omega
      rw [ih k (i + 1) (flowStep exec nodes ctx node).1
        (flowStep exec nodes ctx node).2 h1 h2]
      simp

theorem mem_resetNodes {nodes : List WorkflowNode} {n : WorkflowNode}
    (hn : n ∈ resetNodes nodes) :
    n.status = .pending ∧ n.output = none ∧ n.error = none := by
  rcases List.mem_map.mp hn with ⟨m, _, hfm⟩
  rw [← hfm]
  exact ⟨rfl, rfl, rfl⟩

/-- C8: when the cancellation flag is first observed set at the k-th
iteration boundary, exactly the first k scheduled nodes were dispatched
(marked running), and every node whose id is not among those first k
dispatched ids is still pending with no output and no error — cancellation
is never recorded as a node error. -/
theorem executeFlow_cancellation_spec
    (exec : WorkflowNode → ExecutionContext → StepResult) (abortAt : Nat → Bool)
    (g : WorkflowGraph) (prompt : String) (k : Nat)
    (hk : abortAt k = true) (hbefore : ∀ j, j < k → abortAt j = false) :
    (executeFlow exec abortAt g prompt).2.2
      = ((getExecutionOrder g).take k).map (fun n => n.id) ∧
    ∀ n ∈ (executeFlow exec abortAt g prompt).1,
      n.id ∉ ((getExecutionOrder g).take k).map (fun n => n.id) →
      n.status = .pending ∧ n.output = none ∧ n.error = none := by
  have hdisp : (runFlowLoop exec abortAt (getExecutionOrder g) 0
      (resetNodes g.nodes) (createInitialContext prompt)).2.2
      = ((getExecutionOrder g).take k).map (fun n => n.id) := by
    apply runFlowLoop_dispatched
    · intro j hj
      have := hbefore j hj
      simpa using this
    · left
      simpa using hk
  refine ⟨hdisp, ?_⟩
  intro n hn hnid
  have h2 : n.id ∉ (runFlowLoop exec abortAt (getExecutionOrder g) 0
      (resetNodes g.nodes) (createInitialContext prompt)).2.2 := by
    rw [hdisp]
    exact hnid
  have h1 : n ∈ (runFlowLoop exec abortAt (getExecutionOrder g) 0
      (resetNodes g.nodes) (createInitialContext prompt)).1 := hn
  exact mem_resetNodes (runFlowLoop_untouched exec abortAt
    (getExecutionOrder g) 0 (resetNodes g.nodes) (createInitialContext prompt)
    n h1 h2)

/-- An executor that always succeeds, for the cancellation witness. -/
def okExec : WorkflowNode → ExecutionContext → StepResult :=
  fun _ _ => .resp true (some "out") none

/-- The cancellation flag that is observed set from the second check on. -/
def abortAfterOne : Nat → Bool := fun i => decide (1 ≤ i)

/-- Witness for C8: cancelling after one dispatched node on the chain
x → y leaves node y pending and untouched. -/
theorem executeFlow_cancellation_spec_witness :
    (executeFlow okExec abortAfterOne dagGraph "p").2.2
      = ((getExecutionOrder dagGraph).take 1).map (fun n => n.id) ∧
    ∀ n ∈ (executeFlow okExec abortAfterOne dagGraph "p").1,
      n.id ∉ ((getExecutionOrder dagGraph).take 1).map (fun n => n.id) →
      n.status = .pending ∧ n.output = none ∧ n.error = none :=
  executeFlow_cancellation_spec okExec abortAfterOne dagGraph "p" 1 rfl
    (fun j hj => by
      have hj0 : j = 0 := by omega
      rw [hj0]
      rfl)

/-! ## Claim C6: the worked example of the spec -/

/-- The example idea of the specification. -/
def exampleIdea : String :=
  "Collect feedback. Analyze sentiment. Notify team if negative."

/-- Counterexample to C6 as stated: in the graph parsed from the example
idea, the edge from node-2 to node-3 is labeled "next", not "branch" — the
"branch" rule tests the *source* segment for conditional language, and
segment 2 ("Analyze sentiment") has none. -/
theorem parseIdea_example_label_counterexample :
    ∃ e ∈ (parseIdeaToWorkflow exampleIdea).edges,
      e.source = "node-2" ∧ e.target = "node-3" ∧ e.label ≠ some "branch" := by
  decide

/-- C6 (amended): the example idea parses into exactly three nodes, in
segment order, with categories collect, analyze, notify; both chain edges
are labeled "next" (the edge from node-2 to node-3 included, since its
source segment contains no conditional keyword); and the Scheduler returns
the order [node-1, node-2, node-3]. -/
theorem parseIdea_example_spec :
    ((parseIdeaToWorkflow exampleIdea).nodes.map
        (fun n => (n.id, n.detail, n.category)))
      = [("node-1", "Collect feedback", WorkflowCategory.collect),
         ("node-2", "Analyze sentiment", WorkflowCategory.analyze),
         ("node-3", "Notify team if negative", WorkflowCategory.notify)] ∧
    ((parseIdeaToWorkflow exampleIdea).edges.map
        (fun e => (e.source, e.target, e.label)))
      = [("node-1", "node-2", some "next"), ("node-2", "node-3", some "next")] ∧
    (getExecutionOrder (parseIdeaToWorkflow exampleIdea)).map (fun n => n.id)
      = ["node-1", "node-2", "node-3"] := by
  decide

end IdeaFlow
